import Mathlib

/-!
Verification development for the RekordKaraoke track-resolution engine.

The JavaScript sources are embedded shallowly:

* strings are `List Char` (wrapped in `String` at the public API);
* all lyric timestamps are integer **milliseconds** (`Int`).  The source
  computes seconds as binary floats; every quantity the parsers produce is an
  integer number of milliseconds, so scaling by 1000 makes the embedding
  exact (float rounding of `ms / 1000` is the only discrepancy and it does
  not affect equalities or comparisons on the millisecond grid);
* regular expressions are compiled by hand into deterministic scanners.
  Backtracking was analysed for each pattern; comments at the definitions
  record why the deterministic scan agrees with the JS engine;
* asynchronous code (the resolver, the UDP bridge) becomes explicit state
  machines with small-step actions.
-/

namespace RK

/-! ## JavaScript string primitives (`src/server/util/normalize.js` helpers) -/

/-- JS `\s` character class (ECMAScript WhiteSpace ∪ LineTerminator). -/
def isJsWs (c : Char) : Bool :=
  c = ' ' || c = '\t' || c = '\n' || c.toNat = 13 || c.toNat = 11 || c.toNat = 12 ||
  c.toNat = 0xa0 || c.toNat = 0x1680 || (0x2000 ≤ c.toNat && c.toNat ≤ 0x200a) ||
  c.toNat = 0x2028 || c.toNat = 0x2029 || c.toNat = 0x202f || c.toNat = 0x205f ||
  c.toNat = 0x3000 || c.toNat = 0xfeff

/-- JS `\w` character class: `[A-Za-z0-9_]`. -/
def isWordChar (c : Char) : Bool :=
  (65 ≤ c.toNat && c.toNat ≤ 90) || (97 ≤ c.toNat && c.toNat ≤ 122) ||
  (48 ≤ c.toNat && c.toNat ≤ 57) || c.toNat = 95

/-- The `[а-яё]` class under the `i` flag: lowercase and uppercase Cyrillic. -/
def isCyr (c : Char) : Bool :=
  (0x430 ≤ c.toNat && c.toNat ≤ 0x44f) || c.toNat = 0x451 ||
  (0x410 ≤ c.toNat && c.toNat ≤ 0x42f) || c.toNat = 0x401

/-- JS ASCII digit. -/
def isDigitJS (c : Char) : Bool := 48 ≤ c.toNat && c.toNat ≤ 57

/-- `String.prototype.toLowerCase`, restricted to the ASCII and Cyrillic
ranges the rest of the pipeline distinguishes (all other characters are
outside every character class used by `normalize.js`). -/
def toLowerJS (c : Char) : Char :=
  if 65 ≤ c.toNat && c.toNat ≤ 90 then Char.ofNat (c.toNat + 32)
  else if 0x410 ≤ c.toNat && c.toNat ≤ 0x42f then Char.ofNat (c.toNat + 0x20)
  else if c.toNat = 0x401 then Char.ofNat 0x451
  else c

/-- `String.prototype.trim` (strips JS whitespace at both ends). -/
def trimJS (l : List Char) : List Char :=
  ((l.dropWhile isJsWs).reverse.dropWhile isJsWs).reverse

/-- Match of `/\s*[\(\[][^\)\]]*[\)\]]\s*/` anchored at the head of `l`;
returns the remainder after the matched span.  The greedy `\s*` cannot
backtrack usefully (every shorter prefix ends on a whitespace character,
which is not an opener), and `[^\)\]]*` excludes both closers, so the greedy
scan up to the first closer is exact. -/
def bracketMatchAt (l : List Char) : Option (List Char) :=
  match l.dropWhile isJsWs with
  | [] => none
  | c :: cs =>
    if c = '(' || c = '[' then
      match cs.dropWhile (fun d => !(d = ')' || d = ']')) with
      | [] => none
      | _ :: cs2 => some (cs2.dropWhile isJsWs)
    else none

/-- Fuelled scanner for the global replace of the bracket pattern by `' '`;
`fuel = l.length` always suffices because a match consumes at least two
characters, so the plain recursion below keeps fuel and length in lockstep. -/
def bracketStripF : Nat → List Char → List Char
  | _, [] => []
  | 0, l => l
  | fuel + 1, c :: cs =>
    match bracketMatchAt (c :: cs) with
    | some rest => ' ' :: bracketStripF fuel rest
    | none => c :: bracketStripF fuel cs

/-- `.replace(/\s*[\(\[][^\)\]]*[\)\]]\s*/g, ' ')`. -/
def bracketStrip (l : List Char) : List Char := bracketStripF l.length l

/-- Case-insensitive literal token match at the head of `l` (the pattern is
given in lowercase); returns the remainder after the token. -/
def matchToken : List Char → List Char → Option (List Char)
  | [], rest => some rest
  | _ :: _, [] => none
  | t :: ts, c :: cs => if toLowerJS c = t then matchToken ts cs else none

/-- One alternative of `(feat\.?|ft\.?|featuring)` followed by the `\s+`
lookahead: the remainder must start with whitespace. -/
def featAltTry (tok : List Char) (l : List Char) : Option (List Char) :=
  match matchToken tok l with
  | some (c :: r) => if isJsWs c then some (c :: r) else none
  | _ => none

/-- `(feat\.?|ft\.?|featuring)\s+…` token step in JS alternation order, with
the greedy optional dot tried first inside each alternative. -/
def featTokenAt (l : List Char) : Option (List Char) :=
  (featAltTry ['f', 'e', 'a', 't', '.'] l).orElse fun _ =>
  (featAltTry ['f', 'e', 'a', 't'] l).orElse fun _ =>
  (featAltTry ['f', 't', '.'] l).orElse fun _ =>
  (featAltTry ['f', 't'] l).orElse fun _ =>
  featAltTry ['f', 'e', 'a', 't', 'u', 'r', 'i', 'n', 'g'] l

/-- JS `.` (any character except a line terminator). -/
def isDotChar (c : Char) : Bool :=
  !(c = '\n' || c.toNat = 13 || c.toNat = 0x2028 || c.toNat = 0x2029)

/-- Match of `/\s*(feat\.?|ft\.?|featuring)\s+.*/i` anchored at the head;
returns the remainder after the match.  As with the bracket pattern the
leading `\s*` cannot backtrack usefully, `\s+` then `.*` are both greedy and
deterministic (`.*` stops at the first line terminator). -/
def featMatchAt (l : List Char) : Option (List Char) :=
  match featTokenAt (l.dropWhile isJsWs) with
  | none => none
  | some r => some ((r.dropWhile isJsWs).dropWhile isDotChar)

/-- `.replace(/\s*(feat\.?|ft\.?|featuring)\s+.*/i, '')` — first match only,
replaced by the empty string (everything after the match is kept: `.*` stops
at a line terminator). -/
def featStrip : List Char → List Char
  | [] => []
  | c :: cs =>
    match featMatchAt (c :: cs) with
    | some rest => rest
    | none => c :: featStrip cs

/-- Does `/\s*(feat\.?|ft\.?|featuring)\s+/i` match anywhere in `l`? -/
def hasFeat : List Char → Bool
  | [] => false
  | c :: cs => (featMatchAt (c :: cs)).isSome || hasFeat cs

/-- `.replace(/\s+/g, ' ')`: every maximal whitespace run becomes one space. -/
def collapseWs : List Char → List Char
  | [] => []
  | [c] => if isJsWs c then [' '] else [c]
  | c :: d :: cs =>
    if isJsWs c then
      if isJsWs d then collapseWs (d :: cs) else ' ' :: collapseWs (d :: cs)
    else c :: collapseWs (d :: cs)

/-- The character class kept by `.replace(/[^\w\sа-яё]/gi, '')`. -/
def keepClass (c : Char) : Bool := isWordChar c || isJsWs c || isCyr c

/-- `normalize` from `src/server/util/normalize.js` (list level):
lower-case, strip bracketed annotations, strip a feat./ft. suffix, collapse
whitespace, drop characters outside the word/whitespace/Cyrillic class, trim. -/
def normalizeL (l : List Char) : List Char :=
  trimJS (List.filter keepClass (collapseWs (featStrip (bracketStrip (l.map toLowerJS)))))

/-- `normalize` on strings (`!str` returns `''`, which coincides with running
the pipeline on the empty list). -/
def normalize (s : String) : String := ⟨normalizeL s.data⟩

/-- `makeKey(artist, title)` = `normalize(artist) + "::" + normalize(title)`. -/
def makeKey (artist title : String) : String :=
  normalize artist ++ "::" ++ normalize title

/-- No two adjacent whitespace characters. -/
def noAdjWs : List Char → Bool
  | c :: d :: cs => !(isJsWs c && isJsWs d) && noAdjWs (d :: cs)
  | _ => true

/-! ## Timed-text parsers (`src/server/parsers/lrc.js`, `src/server/parsers/srt.js`)

All times are integer milliseconds (the sources compute float seconds;
`m*60 + s + ms/1000` scaled by 1000 is exact). -/

/-- `content.split(/\r?\n/)`. -/
def splitLinesJS : List Char → List (List Char)
  | [] => [[]]
  | '\r' :: '\n' :: cs => [] :: splitLinesJS cs
  | '\n' :: cs => [] :: splitLinesJS cs
  | c :: cs =>
    match splitLinesJS cs with
    | [] => [[c]]
    | l :: ls => (c :: l) :: ls

def digitsToNat (l : List Char) : Nat :=
  l.foldl (fun acc c => acc * 10 + (c.toNat - 48)) 0

/-- `parseInt(frac.padEnd(3, '0').slice(0, 3), 10)`. -/
def fracMs (ds : List Char) : Nat := digitsToNat ((ds ++ ['0', '0', '0']).take 3)

/-- The metadata-line pattern `/^\[(\w+):(.+)\]$/`: greedy `\w+` must be
followed directly by `:`, `(.+)` then eats to the final `]` (which must be
the last character), and `.` rejects line terminators. -/
def metaLineMatch (l : List Char) : Option (List Char × List Char) :=
  match l with
  | '[' :: rest =>
    let w := rest.takeWhile isWordChar
    if w.isEmpty then none
    else
      match rest.dropWhile isWordChar with
      | ':' :: r3 =>
        if r3.getLast? = some ']' ∧ 2 ≤ r3.length ∧ r3.dropLast.all isDotChar then
          some (w, r3.dropLast)
        else none
      | _ => none
  | _ => none

def lrcTimeMs (mins secs frac : List Char) : Int :=
  (digitsToNat mins * 60000 + digitsToNat secs * 1000 + fracMs frac : Nat)

/-- Head match of the loop pattern `/^\[(\d+:\d+[.:]\d+)\]/` combined with
`parseTimestamp` (whose regex `/(\d+):(\d+)[.:](\d+)/` matches the captured
group exactly, with the same digit runs, so the two are fused).  Greedy digit
runs are deterministic: shrinking a run puts a digit where a non-digit is
required strictly. -/
def lrcTsAt (l : List Char) : Option (Int × List Char) :=
  match l with
  | '[' :: r0 =>
    if (r0.takeWhile isDigitJS).isEmpty then none else
    match r0.dropWhile isDigitJS with
    | ':' :: r2 =>
      if (r2.takeWhile isDigitJS).isEmpty then none else
      match r2.dropWhile isDigitJS with
      | sep :: r4 =>
        if sep = '.' ∨ sep = ':' then
          if (r4.takeWhile isDigitJS).isEmpty then none else
          match r4.dropWhile isDigitJS with
          | ']' :: r6 =>
            some (lrcTimeMs (r0.takeWhile isDigitJS) (r2.takeWhile isDigitJS)
              (r4.takeWhile isDigitJS), r6)
          | _ => none
        else none
      | _ => none
    | _ => none
  | _ => none

/-- The `while ((match = text.match(/^\[...\]/)))` loop; each match consumes
at least seven characters so `fuel = length` suffices and fuel and input
length stay in lockstep. -/
def lrcTimestampsF : Nat → List Char → List Int × List Char
  | _, [] => ([], [])
  | 0, l => ([], l)
  | fuel + 1, c :: cs =>
    match lrcTsAt (c :: cs) with
    | some (t, rest) =>
      let p := lrcTimestampsF fuel rest
      (t :: p.1, p.2)
    | none => ([], c :: cs)

def lrcTimestamps (l : List Char) : List Int × List Char :=
  lrcTimestampsF l.length l

structure RawLine where
  time : Int
  text : List Char
deriving DecidableEq

structure TimedLine where
  time : Int
  endTime : Int
  text : List Char
deriving DecidableEq

/-- JS object used as a string map: later assignment to the same key
overwrites, property order is insertion order. -/
abbrev MetaMap := List (List Char × List Char)

def metaPut (m : MetaMap) (k v : List Char) : MetaMap :=
  if m.any (fun p => p.1 = k) then m.map (fun p => if p.1 = k then (k, v) else p)
  else m ++ [(k, v)]

def metaGet (m : MetaMap) (k : List Char) : Option (List Char) :=
  (m.find? (fun p => p.1 = k)).map (fun p => p.2)

/-- One iteration of the per-line collection loop of the LRC parser. -/
def lrcStep (acc : MetaMap × List RawLine) (line : List Char) :
    MetaMap × List RawLine :=
  match metaLineMatch line with
  | some (k, v) => (metaPut acc.1 (k.map toLowerJS) (trimJS v), acc.2)
  | none =>
    let p := lrcTimestamps line
    let text := trimJS p.2
    if p.1.isEmpty || text.isEmpty then acc
    else (acc.1, acc.2 ++ p.1.map (fun t => ⟨t, text⟩))

/-- The per-line collection loop of the LRC parser. -/
def lrcCollect (ls : List (List Char)) : MetaMap × List RawLine :=
  ls.foldl lrcStep ([], [])

/-- Stable insertion sort by an integer key.  `Array#sort` with the
comparator `(a, b) => a.time - b.time` is a stable sort, and all stable sorts
for one comparator produce the same list, so insertion sort is exact. -/
def insertByKey {α : Type} (key : α → Int) (x : α) : List α → List α
  | [] => [x]
  | y :: ys => if key x ≤ key y then x :: y :: ys else y :: insertByKey key x ys

def sortByKey {α : Type} (key : α → Int) : List α → List α
  | [] => []
  | x :: xs => insertByKey key x (sortByKey key xs)

def sortByTime (l : List RawLine) : List RawLine := sortByKey (fun r => r.time) l

/-- JS truthiness of the numeric `trackDuration` (`0` and `null` are falsy). -/
def jsTruthyDur : Option Int → Bool
  | some d => d ≠ 0
  | none => false

/-- Leftmost match of `/(\d+):(\d+)/`, value in milliseconds
(`parseInt(m) * 60 + parseInt(s)` seconds).  On a failed position the scan
advances one character; positions inside a failed digit run fail identically. -/
def lengthScan : List Char → Option Int
  | [] => none
  | c :: cs =>
    if isDigitJS c then
      match (c :: cs).dropWhile isDigitJS with
      | ':' :: r2 =>
        if (r2.takeWhile isDigitJS).isEmpty then lengthScan cs
        else
          some ((digitsToNat ((c :: cs).takeWhile isDigitJS) * 60 +
                 digitsToNat (r2.takeWhile isDigitJS)) * 1000)
      | _ => lengthScan cs
    else lengthScan cs

def lrcLengthDir (m : MetaMap) : Option Int :=
  match metaGet m ['l', 'e', 'n', 'g', 't', 'h'] with
  | none => none
  | some v => if v.isEmpty then none else lengthScan v

/-- `let trackDuration = duration; if (!trackDuration && meta.length) {...}`. -/
def lrcTrackDuration (duration : Option Int) (m : MetaMap) : Option Int :=
  if jsTruthyDur duration then duration
  else
    match lrcLengthDir m with
    | some v => some v
    | none => duration

/-- `trackDuration || alt`. -/
def jsOrDur (td : Option Int) (alt : Int) : Int :=
  match td with
  | some d => if d ≠ 0 then d else alt
  | none => alt

/-- The end-time assignment loop: each non-final line ends where the next
begins; the final line ends at `trackDuration || time + 30` seconds. -/
def assignEnds (td : Option Int) : List RawLine → List TimedLine
  | [] => []
  | [a] => [⟨a.time, jsOrDur td (a.time + 30000), a.text⟩]
  | a :: b :: rest => ⟨a.time, b.time, a.text⟩ :: assignEnds td (b :: rest)

/-- `parseInt(str, 10)`: skip whitespace, optional sign, leading digit run. -/
def parseIntJS (l : List Char) : Option Int :=
  match l.dropWhile isJsWs with
  | '+' :: r =>
    let ds := r.takeWhile isDigitJS
    if ds.isEmpty then none else some (digitsToNat ds : Nat)
  | '-' :: r =>
    let ds := r.takeWhile isDigitJS
    if ds.isEmpty then none else some (-(digitsToNat ds : Int))
  | l1 =>
    let ds := l1.takeWhile isDigitJS
    if ds.isEmpty then none else some (digitsToNat ds : Nat)

/-- `parseInt(x, 10) || 0`. -/
def parseIntOr0 (l : List Char) : Int := (parseIntJS l).getD 0

/-- `if (result.meta.offset)` then `parseInt(offset, 10) || 0` milliseconds. -/
def lrcOffsetMs (m : MetaMap) : Option Int :=
  match metaGet m ['o', 'f', 'f', 's', 'e', 't'] with
  | none => none
  | some v => if v.isEmpty then none else some (parseIntOr0 v)

structure LyrDoc where
  meta : MetaMap
  lines : List TimedLine
  duration : Option Int
deriving DecidableEq

/-- `line.time = Math.max(0, line.time + offsetSec)` and likewise `endTime`
(offset stays in milliseconds here). -/
def applyOffset (off : Int) (ls : List TimedLine) : List TimedLine :=
  ls.map fun l => ⟨max 0 (l.time + off), max 0 (l.endTime + off), l.text⟩

/-- The duration-aware LRC parser (`parse(content, { duration })`). -/
def lrcParse (content : List Char) (duration : Option Int) : LyrDoc :=
  let cm := lrcCollect (splitLinesJS content)
  let td := lrcTrackDuration duration cm.1
  let ls := assignEnds td (sortByTime cm.2)
  let ls2 :=
    match lrcOffsetMs cm.1 with
    | some off => applyOffset off ls
    | none => ls
  ⟨cm.1, ls2, if jsTruthyDur td then td else none⟩

/-- `content.trim().split(/\r?\n\r?\n/)` separator match (both `\r?` greedy,
with backtracking to the shorter alternatives). -/
def splitBlank : List Char → List (List Char)
  | [] => [[]]
  | '\r' :: '\n' :: '\r' :: '\n' :: cs => [] :: splitBlank cs
  | '\r' :: '\n' :: '\n' :: cs => [] :: splitBlank cs
  | '\n' :: '\r' :: '\n' :: cs => [] :: splitBlank cs
  | '\n' :: '\n' :: cs => [] :: splitBlank cs
  | c :: cs =>
    match splitBlank cs with
    | [] => [[c]]
    | l :: ls => (c :: l) :: ls

/-- `line.includes('-->')`. -/
def hasArrow : List Char → Bool
  | '-' :: '-' :: '>' :: _ => true
  | _ :: cs => hasArrow cs
  | [] => false

/-- Characters before the first `-->` (all of them when absent). -/
def beforeArrow : List Char → List Char
  | '-' :: '-' :: '>' :: _ => []
  | c :: cs => c :: beforeArrow cs
  | [] => []

/-- Characters after the first `-->`. -/
def afterArrow : List Char → Option (List Char)
  | '-' :: '-' :: '>' :: cs => some cs
  | _ :: cs => afterArrow cs
  | [] => none

/-- The `for` loop searching the first line containing `-->`; returns it and
the lines after it. -/
def srtFindTimeLine : List (List Char) → Option (List Char × List (List Char))
  | [] => none
  | l :: rest => if hasArrow l then some (l, rest) else srtFindTimeLine rest

/-- Head match of `/(\d+):(\d+):(\d+)[,.](\d+)/`. -/
def srtTimeMs (hrs mins secs frac : List Char) : Int :=
  (digitsToNat hrs * 3600000 + digitsToNat mins * 60000 +
   digitsToNat secs * 1000 + fracMs frac : Nat)

def srtTsAt (l : List Char) : Option Int :=
  if (l.takeWhile isDigitJS).isEmpty then none else
  match l.dropWhile isDigitJS with
  | ':' :: r2 =>
    if (r2.takeWhile isDigitJS).isEmpty then none else
    match r2.dropWhile isDigitJS with
    | ':' :: r4 =>
      if (r4.takeWhile isDigitJS).isEmpty then none else
      match r4.dropWhile isDigitJS with
      | sep :: r6 =>
        if sep = ',' ∨ sep = '.' then
          if (r6.takeWhile isDigitJS).isEmpty then none
          else some (srtTimeMs (l.takeWhile isDigitJS) (r2.takeWhile isDigitJS)
            (r4.takeWhile isDigitJS) (r6.takeWhile isDigitJS))
        else none
      | _ => none
    | _ => none
  | _ => none

/-- Leftmost match of the SRT timestamp pattern (`parseTimestamp`). -/
def srtTimestamp : List Char → Option Int
  | [] => none
  | c :: cs =>
    match srtTsAt (c :: cs) with
    | some t => some t
    | none => srtTimestamp cs

/-- One SRT block: needs two or more lines, a range line, two parseable
timestamps and non-empty joined text. -/
def srtBlockLine (block : List Char) : Option TimedLine :=
  if (splitLinesJS block).length < 2 then none
  else
    match srtFindTimeLine (splitLinesJS block) with
    | none => none
    | some (timeLine, rest) =>
      match srtTimestamp (trimJS (beforeArrow timeLine)),
            (match afterArrow timeLine with
             | some r => srtTimestamp (trimJS (beforeArrow r))
             | none => none) with
      | some t, some e =>
        if (trimJS (List.intercalate [' '] rest)).isEmpty then none
        else some ⟨t, e, trimJS (List.intercalate [' '] rest)⟩
      | _, _ => none

def sortTLByTime (l : List TimedLine) : List TimedLine :=
  sortByKey (fun t => t.time) l

/-- The SRT parser (`parse(content, { duration })`). -/
def srtParse (content : List Char) (duration : Option Int) : LyrDoc :=
  let blocks := splitBlank (trimJS content)
  ⟨[], sortTLByTime (blocks.filterMap srtBlockLine),
    if jsTruthyDur duration then duration else none⟩

/-! ## OSC decoder and Link Bridge (`src/server/link-bridge.js`)

Datagrams are byte lists (`List Nat`, each entry `< 256` in practice; the
decoder never relies on the bound).  `buffer.toString('utf8', a, b)` is kept
as the byte slice: the protocol's addresses and track strings are ASCII, and
the dispatch only compares them for equality, which the slice preserves.
A float argument is represented by its big-endian 32-bit pattern; the claims
never interpret the bit pattern as a real number. -/

inductive OscArg where
  | float (w : Nat)
  | int (n : Int)
  | str (bytes : List Nat)
deriving DecidableEq

structure OscMsg where
  address : List Nat
  args : List OscArg
deriving DecidableEq

/-- `buffer.indexOf(0, start)` (`none` for `-1`). -/
def idxOfZero (buf : List Nat) (start : Nat) : Option Nat :=
  ((buf.drop start).findIdx? (fun b => b = 0)).map (fun i => i + start)

/-- `Math.ceil(m / 4) * 4`. -/
def pad4 (m : Nat) : Nat := ((m + 3) / 4) * 4

/-- `buffer.toString('utf8', a, b)` as the byte slice `[a, b)`. -/
def slice (buf : List Nat) (a b : Nat) : List Nat := (buf.take b).drop a

/-- Big-endian 32-bit word at `off` (reads out of range are guarded by the
callers, matching `readFloatBE`/`readInt32BE` which throw there). -/
def word32 (buf : List Nat) (off : Nat) : Nat :=
  buf.getD off 0 * 16777216 + buf.getD (off + 1) 0 * 65536 +
  buf.getD (off + 2) 0 * 256 + buf.getD (off + 3) 0

/-- Two's-complement interpretation of a 32-bit word (`readInt32BE`). -/
def toInt32 (w : Nat) : Int :=
  if w < 2147483648 then (w : Int) else (w : Int) - 4294967296

def tagF : Nat := 0x66
def tagI : Nat := 0x69
def tagS : Nat := 0x73

/-- The argument loop of `parseOscMessage`: `'f'` and `'i'` read four bytes
big-endian (`readFloatBE`/`readInt32BE` throw a `RangeError` when fewer than
four bytes remain — modelled as `.error`), `'s'` reads a null-terminated
4-byte-padded region (`indexOf` falling back to the buffer length), and any
other tag byte produces no argument and advances nothing (the documented
quirk). -/
def readArgs (buf : List Nat) : List Nat → Nat → Except Unit (List OscArg × Nat)
  | [], off => .ok ([], off)
  | t :: ts, off =>
    if t = tagF then
      if off + 4 ≤ buf.length then
        (readArgs buf ts (off + 4)).map
          (fun p => (.float (word32 buf off) :: p.1, p.2))
      else .error ()
    else if t = tagI then
      if off + 4 ≤ buf.length then
        (readArgs buf ts (off + 4)).map
          (fun p => (.int (toInt32 (word32 buf off)) :: p.1, p.2))
      else .error ()
    else if t = tagS then
      (readArgs buf ts (pad4 ((idxOfZero buf off).getD buf.length + 1))).map
        (fun p => (.str (slice buf off ((idxOfZero buf off).getD buf.length)) :: p.1,
          p.2))
    else readArgs buf ts off

/-- `parseOscMessage`: `.ok none` is an explicit `return null`, `.error ()`
is a thrown exception (caught by the message handler).  The type-tag string
is iterated bytewise; for ASCII tags this coincides with the JS string
iteration, and a non-ASCII byte falls into the `default` arm either way. -/
def parseOscMessage (buf : List Nat) : Except Unit (Option OscMsg) :=
  match idxOfZero buf 0 with
  | none => .ok none
  | some aEnd =>
    if buf.get? (pad4 (aEnd + 1)) ≠ some 0x2C then .ok none
    else
      match idxOfZero buf (pad4 (aEnd + 1)) with
      | none => .ok none
      | some tEnd =>
        match readArgs buf (slice buf (pad4 (aEnd + 1) + 1) tEnd)
            (pad4 (tEnd + 1)) with
        | .error e => .error e
        | .ok (args, _) => .ok (some ⟨slice buf 0 aEnd, args⟩)

/-- JS truthiness of an argument value (`0`, `-0`, `NaN` and `''` are falsy;
for a float word: zero exponent-and-mantissa patterns `0`/`2^31`, or an
all-ones exponent with non-zero mantissa). -/
def truthyArg : OscArg → Bool
  | .str s => !s.isEmpty
  | .int n => n ≠ 0
  | .float w =>
    !(w = 0 || w = 2147483648 || ((w / 8388608) % 256 = 255 && w % 8388608 ≠ 0))

/-- `typeof args[0] === 'number'`. -/
def isNumArg : OscArg → Bool
  | .str _ => false
  | _ => true

/-- `${value}` coercion to the string used in the track key.  Track
addresses carry `'s'` arguments on this protocol; the numeric renderings
below are stand-ins (JS float formatting is out of scope) and are exercised
by no claim. -/
def argBytes : OscArg → List Nat
  | .str s => s
  | .int n => 110 :: (n.natAbs.digits 10).reverse
  | .float w => 102 :: (w.digits 10).reverse

def addrTitle : List Nat := "/track/master/title".data.map Char.toNat
def addrArtist : List Nat := "/track/master/artist".data.map Char.toNat
def addrTime : List Nat := "/time/master".data.map Char.toNat
def addrBpm : List Nat := "/bpm/master/current".data.map Char.toNat
def addrBeat : List Nat := "/beat/master".data.map Char.toNat

/-- `` `${artist}::${title}` `` — concatenation, preserving the quirk that
`("a::b", "c")` and `("a", "b::c")` collide onto one key. -/
def keyOf (artist title : OscArg) : List Nat :=
  argBytes artist ++ [58, 58] ++ argBytes title

inductive BEvent where
  | time (a : OscArg)
  | bpm (a : OscArg)
  | beat (a : OscArg)
  | trackChanged (artist title : OscArg)
deriving DecidableEq

/-- Bridge state: the `state.master` record, the last confirmed track key,
and the debounce timer.  `pending` holds the identifier of the armed timer
(`setTimeout` handle); arming cancels and replaces any previous one
(`clearTimeout` + `setTimeout`), and a cancelled or replaced timer never
fires. -/
structure Bridge where
  artist : OscArg
  title : OscArg
  timev : OscArg
  bpmv : OscArg
  beatv : OscArg
  lastTrackKey : List Nat
  pending : Option Nat
  nextTimer : Nat
deriving DecidableEq

def initBridge : Bridge :=
  ⟨.str [], .str [], .float 0, .float 0, .float 0, [], none, 0⟩

/-- `checkTrackChange` up to the timer callback: if the candidate key
differs from the last confirmed key and both fields are truthy, (re)arm the
50 ms debounce timer. -/
def checkTrackChange (st : Bridge) : Bridge :=
  if keyOf st.artist st.title ≠ st.lastTrackKey ∧
      truthyArg st.artist = true ∧ truthyArg st.title = true then
    { st with pending := some st.nextTimer, nextTimer := st.nextTimer + 1 }
  else st

/-- The timer callback.  A `Fire tid` for a timer that is no longer the
armed one is a timeout that was cleared: it never runs.  On fire, re-read the
state; if the key still differs and both fields are truthy, confirm and emit
exactly one `trackChanged`. -/
def fireTimer (st : Bridge) (tid : Nat) : Bridge × List BEvent :=
  if st.pending = some tid then
    if keyOf st.artist st.title ≠ st.lastTrackKey ∧
        truthyArg st.artist = true ∧ truthyArg st.title = true then
      ({ st with pending := none, lastTrackKey := keyOf st.artist st.title },
        [.trackChanged st.artist st.title])
    else ({ st with pending := none }, [])
  else (st, [])

/-- `handleOsc`: dispatch on address with the source's argument guards. -/
def handleOsc (st : Bridge) (msg : OscMsg) : Bridge × List BEvent :=
  match msg.args.head? with
  | none => (st, [])
  | some a =>
    if msg.address = addrTitle then
      if truthyArg a then (checkTrackChange { st with title := a }, []) else (st, [])
    else if msg.address = addrArtist then
      if truthyArg a then (checkTrackChange { st with artist := a }, []) else (st, [])
    else if msg.address = addrTime then
      if isNumArg a then ({ st with timev := a }, [.time a]) else (st, [])
    else if msg.address = addrBpm then
      if isNumArg a then ({ st with bpmv := a }, [.bpm a]) else (st, [])
    else if msg.address = addrBeat then
      if isNumArg a then ({ st with beatv := a }, [.beat a]) else (st, [])
    else (st, [])

/-- The socket `message` handler: parse errors are caught (`try`/`catch`,
logged) and `null` results skipped — either way the datagram is dropped and
the state untouched. -/
def processDatagram (st : Bridge) (buf : List Nat) : Bridge × List BEvent :=
  match parseOscMessage buf with
  | .error _ => (st, [])
  | .ok none => (st, [])
  | .ok (some m) => handleOsc st m

/-- Sequential processing of a datagram stream (datagrams are handled to
completion in arrival order). -/
def processDatagrams (st : Bridge) : List (List Nat) → Bridge × List BEvent
  | [] => (st, [])
  | b :: bs =>
    let p := processDatagram st b
    let q := processDatagrams p.1 bs
    (q.1, p.2 ++ q.2)

/-- A datagram the decoder rejects: a thrown decode exception or a `null`. -/
def oscMalformed (buf : List Nat) : Prop :=
  parseOscMessage buf = .error () ∨ parseOscMessage buf = .ok none

/-! ## Resolver pipeline (`src/server/lyrics/resolver.js`, `library.js`,
`store.js`, `util/normalize.js` `makeSafeFilename`)

Filesystem and network are an explicit environment: `localFiles` maps raw
paths to staged file contents, `providerResults` lists each configured
provider's `search` outcome in priority order.  `path.join` is `++ "/" ++`
and `path.relative`/`addedAt` (cosmetic path rewriting and the wall-clock
timestamp) are omitted.  A thrown `store.save` is `.error` (it propagates
out of the provider loop; inside `checkLocalFiles` the surrounding
`try`/`catch` swallows it and continues with the next extension). -/

def isBadFileChar (c : Char) : Bool :=
  c = '<' || c = '>' || c = ':' || c = '"' || c = '/' || c = '\\' || c = '|' ||
  c = '?' || c = '*'

/-- `.replace(/\s+/g, '_')`. -/
def collapseWsU : List Char → List Char
  | [] => []
  | [c] => if isJsWs c then ['_'] else [c]
  | c :: d :: cs =>
    if isJsWs c then
      if isJsWs d then collapseWsU (d :: cs) else '_' :: collapseWsU (d :: cs)
    else c :: collapseWsU (d :: cs)

/-- `safe(str)`: `(str || 'unknown')`, bad filesystem characters to `'_'`,
whitespace runs to `'_'`, first 50 characters. -/
def safePart (s : String) : List Char :=
  (collapseWsU ((if s.data.isEmpty then "unknown".data else s.data).map
    (fun c => if isBadFileChar c then '_' else c))).take 50

def makeSafeFilename (artist title : String) : String :=
  ⟨safePart artist ++ "_-_".data ++ safePart title⟩

structure LibEntry where
  artist : String
  title : String
  rawPath : String
  jsonPath : String
  format : String
  linesCount : Nat
  provider : String
deriving DecidableEq

/-- The Library Index: a JS object keyed by `makeKey` (insertion order,
assignment overwrites). -/
structure Library where
  index : List (String × LibEntry)
deriving DecidableEq

def libFind (lib : Library) (artist title : String) : Option LibEntry :=
  (lib.index.find? (fun p => p.1 = makeKey artist title)).map (fun p => p.2)

def libAdd (lib : Library) (artist title : String) (e : LibEntry) : Library :=
  ⟨if lib.index.any (fun p => p.1 = makeKey artist title)
   then lib.index.map (fun p => if p.1 = makeKey artist title then (p.1, e) else p)
   else lib.index ++ [(makeKey artist title, e)]⟩

structure StoredInfo where
  rawPath : String
  jsonPath : String
  format : String
  linesCount : Nat
deriving DecidableEq

/-- `parsers.parse(content, format, { duration })`: dispatch on the
lower-cased format or extension; an unsupported format throws (`none`). -/
def parsersParse (content fmt : String) (duration : Option Int) : Option LyrDoc :=
  let k : String := ⟨fmt.data.map toLowerJS⟩
  if k = "lrc" ∨ k = ".lrc" then some (lrcParse content.data duration)
  else if k = "srt" ∨ k = ".srt" then some (srtParse content.data duration)
  else none

/-- `Store.save`: write the raw file, parse, write the JSON, return the
paths and line count (file writes are environment effects not observed by
any claim; the returned record is what the Library stores). -/
def storeSave (rawDir jsonDir artist title content fmt : String)
    (duration : Option Int) : Option StoredInfo :=
  match parsersParse content fmt duration with
  | none => none
  | some doc =>
    some ⟨rawDir ++ "/" ++ makeSafeFilename artist title ++
            (if fmt.data.head? = some '.' then fmt else "." ++ fmt),
          jsonDir ++ "/" ++ makeSafeFilename artist title ++ ".json",
          fmt, doc.lines.length⟩

structure ProviderHit where
  name : String
  content : String
  format : String
  duration : Option Int
deriving DecidableEq

structure ResolveEnv where
  localFiles : List (String × String)
  providerResults : List (Option ProviderHit)
deriving DecidableEq

def supportedFormats : List String := [".lrc", ".srt"]

def fileLookup (env : ResolveEnv) (p : String) : Option String :=
  (env.localFiles.find? (fun q => q.1 = p)).map (fun q => q.2)

/-- The `for (const ext of formats)` loop of `checkLocalFiles`, returning
(result, library, number of file accesses). -/
def checkLocalGo (env : ResolveEnv) (rawDir jsonDir artist title : String) :
    List String → Library → Except Unit (Option LibEntry) × Library × Nat
  | [], lib => (.ok none, lib, 0)
  | ext :: rest, lib =>
    match fileLookup env (rawDir ++ "/" ++ makeSafeFilename artist title ++ ext) with
    | none =>
      let r := checkLocalGo env rawDir jsonDir artist title rest lib
      (r.1, r.2.1, r.2.2 + 1)
    | some content =>
      match storeSave rawDir jsonDir artist title content ext none with
      | none =>
        let r := checkLocalGo env rawDir jsonDir artist title rest lib
        (r.1, r.2.1, r.2.2 + 1)
      | some stored =>
        let lib2 := libAdd lib artist title
          ⟨artist, title, stored.rawPath, stored.jsonPath, stored.format,
            stored.linesCount, "local"⟩
        (.ok (libFind lib2 artist title), lib2, 1)

/-- The provider loop of `_doResolve`, returning (result, library, number of
provider queries).  A `search` returning `null` moves to the next provider;
a hit is saved and added; a throwing save propagates. -/
def providersGo (rawDir jsonDir artist title : String) :
    List (Option ProviderHit) → Library → Except Unit (Option LibEntry) × Library × Nat
  | [], lib => (.ok none, lib, 0)
  | none :: rest, lib =>
    let r := providersGo rawDir jsonDir artist title rest lib
    (r.1, r.2.1, r.2.2 + 1)
  | some hit :: rest, lib =>
    match storeSave rawDir jsonDir artist title hit.content hit.format hit.duration with
    | none => (.error (), lib, 1)
    | some stored =>
      let lib2 := libAdd lib artist title
        ⟨artist, title, stored.rawPath, stored.jsonPath, stored.format,
          stored.linesCount, hit.name⟩
      (.ok (libFind lib2 artist title), lib2, 1)

/-- `_doResolve`: staged local files first, then the providers in priority
order; results are (result, library, localChecks, providerQueries). -/
def doResolve (env : ResolveEnv) (rawDir jsonDir : String) (lib : Library)
    (artist title : String) (skipLocal skipProviders : Bool) :
    Except Unit (Option LibEntry) × Library × Nat × Nat :=
  match (if skipLocal then (Except.ok none, lib, 0)
         else checkLocalGo env rawDir jsonDir artist title supportedFormats lib) with
  | (.error e, lib2, lc) => (.error e, lib2, lc, 0)
  | (.ok (some r), lib2, lc) => (.ok (some r), lib2, lc, 0)
  | (.ok none, lib2, lc) =>
    if skipProviders then (.ok none, lib2, lc, 0)
    else
      let p := providersGo rawDir jsonDir artist title env.providerResults lib2
      (p.1, p.2.1, lc, p.2.2)

/-- One sequential `resolve` call without the in-flight map (steps 1 and 3
of `Resolver.resolve`): the fast-path Index lookup, then `_doResolve`. -/
def resolveOnce (env : ResolveEnv) (rawDir jsonDir : String) (lib : Library)
    (artist title : String) (skipLocal skipProviders : Bool) :
    Except Unit (Option LibEntry) × Library × Nat × Nat :=
  if skipLocal = false then
    match libFind lib artist title with
    | some cached => (.ok (some cached), lib, 0, 0)
    | none => doResolve env rawDir jsonDir lib artist title skipLocal skipProviders
  else doResolve env rawDir jsonDir lib artist title skipLocal skipProviders

/-! ### In-flight request deduplication (`pendingRequests` map)

Small-step model of `Resolver.resolve` for a single key.  JavaScript's
single-threaded execution makes the synchronous prefix of `resolve` (library
check, pending check, token insertion) one atomic step (`enter`); the
underlying `_doResolve` runs between `enter` and `complete`, and its
settlement (library update on a hit, waking every waiter with the same
settled value, and the `finally` removing the token — all before any other
call's synchronous prefix can observe an intermediate state) is the atomic
`complete` step.  `started` records every uncached resolution begun. -/

inductive ROutcome where
  | hit (e : LibEntry)
  | miss
  | fail
deriving DecidableEq

def outcomeResult : ROutcome → Except Unit (Option LibEntry)
  | .hit e => .ok (some e)
  | .miss => .ok none
  | .fail => .error ()

def exceptDecEq {α β : Type} [DecidableEq α] [DecidableEq β] :
    DecidableEq (Except α β) := fun a b =>
  match a, b with
  | .error x, .error y =>
    match decEq x y with
    | isTrue h => isTrue (h ▸ rfl)
    | isFalse h => isFalse fun he => h (Except.error.inj he)
  | .ok x, .ok y =>
    match decEq x y with
    | isTrue h => isTrue (h ▸ rfl)
    | isFalse h => isFalse fun he => h (Except.ok.inj he)
  | .error _, .ok _ => isFalse fun he => Except.noConfusion he
  | .ok _, .error _ => isFalse fun he => Except.noConfusion he

instance {α β : Type} [DecidableEq α] [DecidableEq β] : DecidableEq (Except α β) :=
  exceptDecEq

inductive CallPhase where
  | start
  | waiting (rid : Nat)
  | done (r : Except Unit (Option LibEntry))
deriving DecidableEq

structure MutexState where
  lib : Option LibEntry
  pending : Option Nat
  nextId : Nat
  started : List Nat
  calls : List CallPhase
deriving DecidableEq

inductive RAct where
  | enter (i : Nat)
  | complete (rid : Nat) (o : ROutcome)
deriving DecidableEq

/-- The synchronous prefix of `resolve` for call `i`: return the cached
entry, or attach to the in-flight promise, or insert a token and start the
uncached resolution. -/
def enterStep (s : MutexState) (i : Nat) : Option MutexState :=
  match s.calls.get? i with
  | some .start =>
    match s.lib with
    | some e => some { s with calls := s.calls.set i (.done (.ok (some e))) }
    | none =>
      match s.pending with
      | some r => some { s with calls := s.calls.set i (.waiting r) }
      | none =>
        some { s with
          pending := some s.nextId,
          started := s.started ++ [s.nextId],
          calls := s.calls.set i (.waiting s.nextId),
          nextId := s.nextId + 1 }
  | _ => none

/-- Settlement of the in-flight resolution `rid`: library updated on a hit,
every waiter resolved with the same value, token removed (`finally`) —
regardless of success, miss or error. -/
def completeStep (s : MutexState) (rid : Nat) (o : ROutcome) : Option MutexState :=
  if s.pending = some rid then
    some { s with
      lib := (match o with | .hit e => some e | _ => s.lib),
      pending := none,
      calls := s.calls.map
        (fun c => if c = .waiting rid then .done (outcomeResult o) else c) }
  else none

def rstep (s : MutexState) : RAct → Option MutexState
  | .enter i => enterStep s i
  | .complete rid o => completeStep s rid o

def runActs (s : MutexState) : List RAct → Option MutexState
  | [] => some s
  | a :: as =>
    match rstep s a with
    | some s2 => runActs s2 as
    | none => none

/-- `n` concurrent `resolve` calls for one key whose library entry does not
exist yet. -/
def initMutex (n : Nat) : MutexState :=
  ⟨none, none, 0, [], List.replicate n .start⟩

/-- Invariant along any enter-only run from `initMutex n`. -/
def MutexInv (n : Nat) (s : MutexState) : Prop :=
  s.lib = none ∧ s.calls.length = n ∧
  (∀ c ∈ s.calls, c = .start ∨ c = .waiting 0) ∧
  ((s.pending = none ∧ s.nextId = 0 ∧ s.started = [] ∧ ∀ c ∈ s.calls, c = .start) ∨
   (s.pending = some 0 ∧ s.nextId = 1 ∧ s.started = [0]))

/-! ## LRCLIB provider decision logic
(`src/server/lyrics/providers/lrclib.js`, `_doSearch` lines after a `200`
response has been parsed into `data`).  A missing/`null` lyrics field is the
empty string (both are falsy in the `item.syncedLyrics` test). -/

structure LrclibItem where
  id : Nat
  artistName : String
  trackName : String
  albumName : String
  duration : Option Int
  syncedLyrics : String
  plainLyrics : String
deriving DecidableEq

structure SearchHit where
  content : String
  format : String
  provider : String
  metaId : Nat
  metaArtist : String
  metaTitle : String
  metaAlbum : String
  metaDuration : Option Int
deriving DecidableEq

/-- `_doSearch` on a parsed result array: empty array → `null`; the first
item with truthy `syncedLyrics` becomes the hit with `format: 'lrc'`; when
none has synced lyrics the plain-lyrics branch only logs and both tails
return `null`. -/
def lrclibDecide (data : List LrclibItem) : Option SearchHit :=
  if data.isEmpty then none
  else
    match data.find? (fun item => !item.syncedLyrics.isEmpty) with
    | some synced =>
      some ⟨synced.syncedLyrics, "lrc", "lrclib", synced.id, synced.artistName,
        synced.trackName, synced.albumName, synced.duration⟩
    | none => none


/-! ### Lemmas about the `normalize` pipeline stages -/

theorem toNat_ofNat_lt (n : Nat) (h : n < 0xd800) : (Char.ofNat n).toNat = n := by
  have hv : n.isValidChar := Or.inl h
  simp only [Char.ofNat]
  rw [dif_pos hv]
  rfl

theorem toLowerJS_fixed (d : Char) (h1 : ¬(65 ≤ d.toNat ∧ d.toNat ≤ 90))
    (h2 : ¬(0x410 ≤ d.toNat ∧ d.toNat ≤ 0x42f)) (h3 : ¬d.toNat = 0x401) :
    toLowerJS d = d := by
  unfold toLowerJS
  rw [if_neg (fun hc => h1 (by simpa using hc)),
      if_neg (fun hc => h2 (by simpa using hc)), if_neg h3]

theorem toLowerJS_idem (c : Char) : toLowerJS (toLowerJS c) = toLowerJS c := by
  by_cases h1 : 65 ≤ c.toNat ∧ c.toNat ≤ 90
  · have e : toLowerJS c = Char.ofNat (c.toNat + 32) := by
      unfold toLowerJS; rw [if_pos (by simp [h1.1, h1.2])]
    have hv : (Char.ofNat (c.toNat + 32)).toNat = c.toNat + 32 :=
      toNat_ofNat_lt _ (by omega)
    rw [e]
    exact toLowerJS_fixed _ (by rw [hv]; omega) (by rw [hv]; omega) (by rw [hv]; omega)
  · by_cases h2 : 0x410 ≤ c.toNat ∧ c.toNat ≤ 0x42f
    · have e : toLowerJS c = Char.ofNat (c.toNat + 0x20) := by
        unfold toLowerJS
        rw [if_neg (fun hc => h1 (by simpa using hc)), if_pos (by simp [h2.1, h2.2])]
      have hv : (Char.ofNat (c.toNat + 0x20)).toNat = c.toNat + 0x20 :=
        toNat_ofNat_lt _ (by omega)
      rw [e]
      exact toLowerJS_fixed _ (by rw [hv]; omega) (by rw [hv]; omega) (by rw [hv]; omega)
    · by_cases h3 : c.toNat = 0x401
      · have e : toLowerJS c = Char.ofNat 0x451 := by
          unfold toLowerJS
          rw [if_neg (fun hc => h1 (by simpa using hc)),
              if_neg (fun hc => h2 (by simpa using hc)), if_pos h3]
        have hv : (Char.ofNat 0x451).toNat = 0x451 := toNat_ofNat_lt _ (by omega)
        rw [e]
        exact toLowerJS_fixed _ (by rw [hv]; omega) (by rw [hv]; omega)
          (by rw [hv]; omega)
      · rw [toLowerJS_fixed c h1 h2 h3, toLowerJS_fixed c h1 h2 h3]

theorem toLowerJS_space : toLowerJS ' ' = ' ' := by decide

/-- A successful bracket match leaves a suffix of the input. -/
theorem bracketMatchAt_suffix {l rest : List Char} (h : bracketMatchAt l = some rest) :
    rest <:+ l := by
  unfold bracketMatchAt at h
  split at h
  · exact absurd h (by simp)
  next c cs hdx =>
    split at h
    · split at h
      · exact absurd h (by simp)
      next d cs2 hdy =>
        simp only [Option.some.injEq] at h
        subst h
        have hdw : c :: cs <:+ l := hdx ▸ List.dropWhile_suffix _
        have s1 : cs2.dropWhile isJsWs <:+ cs2 := List.dropWhile_suffix _
        have s2 : cs2 <:+ d :: cs2 := List.suffix_cons _ _
        have s3 : d :: cs2 <:+ cs := hdy ▸ List.dropWhile_suffix _
        have s4 : cs <:+ c :: cs := List.suffix_cons _ _
        exact ((((s1.trans s2).trans s3).trans s4).trans hdw)
    · exact absurd h (by simp)

theorem bracketStripF_nil (fuel : Nat) : bracketStripF fuel [] = [] := by
  cases fuel <;> rfl

theorem bracketStripF_zero (l : List Char) : bracketStripF 0 l = l := by
  cases l <;> rfl

theorem bracketStripF_succ (f : Nat) (c : Char) (cs : List Char) :
    bracketStripF (f + 1) (c :: cs) =
      match bracketMatchAt (c :: cs) with
      | some rest => ' ' :: bracketStripF f rest
      | none => c :: bracketStripF f cs := rfl

theorem mem_bracketStripF {c : Char} :
    ∀ (fuel : Nat) (l : List Char), c ∈ bracketStripF fuel l → c ∈ l ∨ c = ' ' := by
  intro fuel
  induction fuel with
  | zero =>
    intro l h
    rw [bracketStripF_zero] at h
    exact Or.inl h
  | succ f ih =>
    intro l h
    cases l with
    | nil =>
      rw [bracketStripF_nil] at h
      exact absurd h (List.not_mem_nil c)
    | cons a as =>
      rw [bracketStripF_succ] at h
      split at h
      next rest hm =>
        rcases List.mem_cons.mp h with h1 | h2
        · exact Or.inr h1
        · rcases ih rest h2 with h3 | h3
          · exact Or.inl ((bracketMatchAt_suffix hm).mem h3)
          · exact Or.inr h3
      next hm =>
        rcases List.mem_cons.mp h with h1 | h2
        · exact Or.inl (h1 ▸ List.mem_cons_self _ _)
        · rcases ih as h2 with h3 | h3
          · exact Or.inl (List.mem_cons_of_mem _ h3)
          · exact Or.inr h3

theorem mem_bracketStrip {c : Char} {l : List Char} (h : c ∈ bracketStrip l) :
    c ∈ l ∨ c = ' ' := mem_bracketStripF _ _ h

theorem bracketMatchAt_none_of_noOpener {l : List Char}
    (h : ∀ c ∈ l, c ≠ '(' ∧ c ≠ '[') : bracketMatchAt l = none := by
  unfold bracketMatchAt
  split
  · rfl
  next c cs hdx =>
    have hsuf : c :: cs <:+ l := hdx ▸ List.dropWhile_suffix isJsWs
    have hc : c ∈ l := hsuf.mem (List.mem_cons_self _ _)
    have hcc := h c hc
    rw [if_neg (by simp [hcc.1, hcc.2])]

theorem bracketStrip_id {l : List Char} (h : ∀ c ∈ l, c ≠ '(' ∧ c ≠ '[') :
    bracketStrip l = l := by
  unfold bracketStrip
  induction l with
  | nil => rfl
  | cons a as ih =>
    have hnone : bracketMatchAt (a :: as) = none :=
      bracketMatchAt_none_of_noOpener h
    rw [List.length_cons, bracketStripF_succ, hnone]
    have has : bracketStripF as.length as = as :=
      ih (fun c hc => h c (List.mem_cons_of_mem _ hc))
    rw [has]

theorem orElse_some {α : Type} {a : Option α} {f : Unit → Option α} {r : α}
    (h : a.orElse f = some r) : a = some r ∨ f () = some r := by
  cases a with
  | none => exact Or.inr h
  | some x => exact Or.inl h

theorem matchToken_suffix :
    ∀ {ts l r : List Char}, matchToken ts l = some r → r <:+ l := by
  intro ts
  induction ts with
  | nil =>
    intro l r h
    simp only [matchToken, Option.some.injEq] at h
    exact h ▸ List.suffix_rfl
  | cons t ts ih =>
    intro l r h
    cases l with
    | nil => exact absurd h (by simp [matchToken])
    | cons c cs =>
      simp only [matchToken] at h
      split at h
      · exact (ih h).trans (List.suffix_cons _ _)
      · exact absurd h (by simp)

theorem featAltTry_suffix {tok l r : List Char} (h : featAltTry tok l = some r) :
    r <:+ l := by
  unfold featAltTry at h
  split at h
  next c r0 hm =>
    split at h
    · simp only [Option.some.injEq] at h
      exact h ▸ matchToken_suffix hm
    · exact absurd h (by simp)
  next => exact absurd h (by simp)

theorem featTokenAt_suffix {l r : List Char} (h : featTokenAt l = some r) :
    r <:+ l := by
  unfold featTokenAt at h
  rcases orElse_some h with h1 | h1
  · exact featAltTry_suffix h1
  rcases orElse_some h1 with h2 | h2
  · exact featAltTry_suffix h2
  rcases orElse_some h2 with h3 | h3
  · exact featAltTry_suffix h3
  rcases orElse_some h3 with h4 | h4
  · exact featAltTry_suffix h4
  exact featAltTry_suffix h4

theorem featMatchAt_suffix {l rest : List Char} (h : featMatchAt l = some rest) :
    rest <:+ l := by
  unfold featMatchAt at h
  split at h
  · exact absurd h (by simp)
  next r hr =>
    simp only [Option.some.injEq] at h
    subst h
    have s1 : (r.dropWhile isJsWs).dropWhile isDotChar <:+ r.dropWhile isJsWs :=
      List.dropWhile_suffix _
    have s2 : r.dropWhile isJsWs <:+ r := List.dropWhile_suffix _
    have s3 : r <:+ l.dropWhile isJsWs := featTokenAt_suffix hr
    have s4 : l.dropWhile isJsWs <:+ l := List.dropWhile_suffix _
    exact ((s1.trans s2).trans s3).trans s4

theorem featStrip_cons (a : Char) (as : List Char) :
    featStrip (a :: as) =
      match featMatchAt (a :: as) with
      | some rest => rest
      | none => a :: featStrip as := rfl

theorem hasFeat_cons (a : Char) (as : List Char) :
    hasFeat (a :: as) = ((featMatchAt (a :: as)).isSome || hasFeat as) := rfl

theorem mem_featStrip {c : Char} : ∀ {l : List Char}, c ∈ featStrip l → c ∈ l
  | [], h => absurd h (List.not_mem_nil c)
  | a :: as, h => by
    rw [featStrip_cons] at h
    cases hm : featMatchAt (a :: as) with
    | some rest =>
      rw [hm] at h
      exact (featMatchAt_suffix hm).mem h
    | none =>
      rw [hm] at h
      rcases List.mem_cons.mp h with h1 | h2
      · exact h1 ▸ List.mem_cons_self _ _
      · exact List.mem_cons_of_mem _ (mem_featStrip h2)

theorem featStrip_id : ∀ {l : List Char}, hasFeat l = false → featStrip l = l
  | [], _ => rfl
  | a :: as, h => by
    rw [hasFeat_cons, Bool.or_eq_false_iff] at h
    rw [featStrip_cons]
    cases hm : featMatchAt (a :: as) with
    | some rest =>
      rw [hm] at h
      simp at h
    | none =>
      have := featStrip_id h.2
      simp only [this]

theorem mem_collapseWs {c : Char} : ∀ {l : List Char}, c ∈ collapseWs l → c ∈ l ∨ c = ' '
  | [], h => absurd h (List.not_mem_nil c)
  | [a], h => by
    by_cases hw : isJsWs a = true <;> simp [collapseWs, hw] at h
    · exact Or.inr h
    · exact Or.inl (by simp [h])
  | a :: b :: bs, h => by
    by_cases hw : isJsWs a = true
    · by_cases hw2 : isJsWs b = true
      · simp only [collapseWs, hw, hw2, if_true] at h
        rcases mem_collapseWs h with h1 | h1
        · exact Or.inl (List.mem_cons_of_mem _ h1)
        · exact Or.inr h1
      · simp [collapseWs, hw, hw2] at h
        rcases h with h1 | h1
        · exact Or.inr h1
        · rcases mem_collapseWs h1 with h2 | h2
          · exact Or.inl (List.mem_cons_of_mem _ h2)
          · exact Or.inr h2
    · simp [collapseWs, hw] at h
      rcases h with h1 | h1
      · exact Or.inl (by simp [h1])
      · rcases mem_collapseWs h1 with h2 | h2
        · exact Or.inl (List.mem_cons_of_mem _ h2)
        · exact Or.inr h2

theorem collapseWs_ws_space {c : Char} :
    ∀ {l : List Char}, c ∈ collapseWs l → isJsWs c = true → c = ' '
  | [], h, _ => absurd h (List.not_mem_nil c)
  | [a], h, hws => by
    by_cases hw : isJsWs a = true <;> simp [collapseWs, hw] at h
    · exact h
    · rw [h] at hws
      exact absurd hws (by simp [hw])
  | a :: b :: bs, h, hws => by
    by_cases hw : isJsWs a = true
    · by_cases hw2 : isJsWs b = true
      · simp only [collapseWs, hw, hw2, if_true] at h
        exact collapseWs_ws_space h hws
      · simp [collapseWs, hw, hw2] at h
        rcases h with h1 | h1
        · exact h1
        · exact collapseWs_ws_space h1 hws
    · simp [collapseWs, hw] at h
      rcases h with h1 | h1
      · rw [h1] at hws
        exact absurd hws (by simp [hw])
      · exact collapseWs_ws_space h1 hws

theorem collapseWs_id :
    ∀ {l : List Char}, (∀ c ∈ l, isJsWs c = true → c = ' ') → noAdjWs l = true →
      collapseWs l = l
  | [], _, _ => rfl
  | [a], hsp, _ => by
    by_cases hw : isJsWs a = true
    · simp only [collapseWs, hw, if_true]
      rw [hsp a (List.mem_cons_self _ _) hw]
    · simp [collapseWs, hw]
  | a :: b :: bs, hsp, hadj => by
    simp only [noAdjWs, Bool.and_eq_true] at hadj
    have hrest : collapseWs (b :: bs) = b :: bs :=
      collapseWs_id (fun c hc => hsp c (List.mem_cons_of_mem _ hc))
        (by simpa [noAdjWs] using hadj.2)
    by_cases hw : isJsWs a = true
    · have hw2 : isJsWs b = false := by
        rcases (by simpa using hadj.1 : isJsWs a = false ∨ isJsWs b = false) with h1 | h1
        · exact absurd hw (by simp [h1])
        · exact h1
      simp only [collapseWs, hw, hw2, if_true]
      rw [if_neg (by simp), hrest, hsp a (List.mem_cons_self _ _) hw]
    · simp only [collapseWs]
      rw [if_neg (by simp [hw]), hrest]

theorem mem_trimJS {c : Char} {l : List Char} (h : c ∈ trimJS l) : c ∈ l := by
  unfold trimJS at h
  rw [List.mem_reverse] at h
  have h2 := (List.dropWhile_suffix isJsWs).mem h
  rw [List.mem_reverse] at h2
  exact (List.dropWhile_suffix isJsWs).mem h2

theorem dropWhile_head_not {p : Char → Bool} :
    ∀ {l : List Char} {c : Char}, (l.dropWhile p).head? = some c → p c = false := by
  intro l
  induction l with
  | nil => intro c h; simp [List.dropWhile] at h
  | cons a as ih =>
    intro c h
    rw [List.dropWhile_cons] at h
    by_cases hp : p a = true
    · rw [if_pos hp] at h
      exact ih h
    · rw [if_neg hp] at h
      simp only [List.head?_cons, Option.some.injEq] at h
      rw [← h]
      exact Bool.not_eq_true _ ▸ Bool.of_not_eq_true hp

theorem dropWhile_idem {p : Char → Bool} {l : List Char} :
    (l.dropWhile p).dropWhile p = l.dropWhile p := by
  cases hd : l.dropWhile p with
  | nil => rfl
  | cons a as =>
    have ha : p a = false := dropWhile_head_not (l := l) (by rw [hd]; rfl)
    rw [List.dropWhile_cons, if_neg (by simp [ha])]

theorem getLast?_of_suffix {l₁ l₂ : List Char} (h : l₁ <:+ l₂) (hne : l₁ ≠ []) :
    l₁.getLast? = l₂.getLast? := by
  obtain ⟨pre, rfl⟩ := h
  rw [List.getLast?_append]
  cases hl : l₁.getLast? with
  | none => exact absurd (List.getLast?_eq_none_iff.mp hl) hne
  | some x => rfl

theorem dropWhile_eq_self_of_head {p : Char → Bool} {l : List Char}
    (h : ∀ c, l.head? = some c → p c = false) : l.dropWhile p = l := by
  cases l with
  | nil => rfl
  | cons a as => rw [List.dropWhile_cons, if_neg (by simp [h a rfl])]

theorem trimJS_eq_self {l : List Char}
    (hh : ∀ c, l.head? = some c → isJsWs c = false)
    (hl : ∀ c, l.getLast? = some c → isJsWs c = false) : trimJS l = l := by
  unfold trimJS
  rw [dropWhile_eq_self_of_head hh]
  rw [dropWhile_eq_self_of_head (fun c hc => hl c (by rwa [List.head?_reverse] at hc))]
  rw [List.reverse_reverse]

theorem trimJS_last_not {l : List Char} {c : Char}
    (h : (trimJS l).getLast? = some c) : isJsWs c = false := by
  unfold trimJS at h
  rw [List.getLast?_eq_head?_reverse, List.reverse_reverse] at h
  exact dropWhile_head_not h

theorem trimJS_head_not {l : List Char} {c : Char}
    (h : (trimJS l).head? = some c) : isJsWs c = false := by
  unfold trimJS at h
  rw [List.head?_reverse] at h
  have hne : (l.dropWhile isJsWs).reverse.dropWhile isJsWs ≠ [] := by
    intro he
    rw [he] at h
    simp at h
  have h1 : ((l.dropWhile isJsWs).reverse.dropWhile isJsWs).getLast?
      = (l.dropWhile isJsWs).reverse.getLast? :=
    getLast?_of_suffix (List.dropWhile_suffix _) hne
  rw [h1, List.getLast?_eq_head?_reverse, List.reverse_reverse] at h
  exact dropWhile_head_not h

theorem trimJS_idem (l : List Char) : trimJS (trimJS l) = trimJS l :=
  trimJS_eq_self (fun _ hc => trimJS_head_not hc) (fun _ hc => trimJS_last_not hc)

/-- Every character of a `normalize` result is (a) the lower-casing of an
input character or a space, (b) in the kept class, and (c) a space if it is
whitespace at all. -/
theorem mem_normalizeL_cases {c : Char} {l : List Char} (h : c ∈ normalizeL l) :
    (c ∈ l.map toLowerJS ∨ c = ' ') ∧ keepClass c = true ∧
      (isJsWs c = true → c = ' ') := by
  unfold normalizeL at h
  have h1 := mem_trimJS h
  have hk : keepClass c = true := List.of_mem_filter h1
  have h2 := (List.mem_filter.mp h1).1
  have hsp : isJsWs c = true → c = ' ' := collapseWs_ws_space h2
  rcases mem_collapseWs h2 with h3 | h3
  · have h4 := mem_featStrip h3
    rcases mem_bracketStrip h4 with h5 | h5
    · exact ⟨Or.inl h5, hk, hsp⟩
    · exact ⟨Or.inr h5, hk, hsp⟩
  · exact ⟨Or.inr h3, hk, hsp⟩

theorem map_id_of_fixed {f : Char → Char} :
    ∀ {l : List Char}, (∀ c ∈ l, f c = c) → l.map f = l
  | [], _ => rfl
  | a :: as, h => by
    rw [List.map_cons, h a (List.mem_cons_self _ _),
      map_id_of_fixed (fun c hc => h c (List.mem_cons_of_mem _ hc))]

theorem normalizeL_idem_of {l : List Char}
    (h1 : noAdjWs (normalizeL l) = true) (h2 : hasFeat (normalizeL l) = false) :
    normalizeL (normalizeL l) = normalizeL l := by
  have sLower : (normalizeL l).map toLowerJS = normalizeL l := by
    refine map_id_of_fixed fun c hc => ?_
    rcases (mem_normalizeL_cases hc).1 with h | h
    · rcases List.mem_map.mp h with ⟨d, _, rfl⟩
      exact toLowerJS_idem d
    · rw [h]; exact toLowerJS_space
  have sBracket : bracketStrip (normalizeL l) = normalizeL l := by
    refine bracketStrip_id fun c hc => ?_
    have hk := (mem_normalizeL_cases hc).2.1
    constructor <;> rintro rfl <;> exact absurd hk (by decide)
  have sFeat : featStrip (normalizeL l) = normalizeL l := featStrip_id h2
  have sCollapse : collapseWs (normalizeL l) = normalizeL l :=
    collapseWs_id (fun c hc hw => (mem_normalizeL_cases hc).2.2 hw) h1
  have sFilter : List.filter keepClass (normalizeL l) = normalizeL l :=
    List.filter_eq_self.mpr fun c hc => (mem_normalizeL_cases hc).2.1
  have sTrim : trimJS (normalizeL l) = normalizeL l := by
    show trimJS (normalizeL l) = normalizeL l
    unfold normalizeL
    exact trimJS_idem _
  generalize hy : normalizeL l = y at sLower sBracket sFeat sCollapse sFilter sTrim ⊢
  show normalizeL y = y
  unfold normalizeL
  rw [sLower, sBracket, sFeat, sCollapse, sFilter]
  exact sTrim

/-- C2 counterexample: `normalize` is **not** idempotent.  On `"a . b"` the
whitespace collapse runs before the special-character strip, so stripping the
`'.'` leaves the double space `"a  b"`, which a second application collapses
to `"a b"`. -/
theorem normalize_not_idempotent :
    normalize (normalize "a . b") ≠ normalize "a . b" := by decide

/-- C2 (amended): `normalize` is idempotent on every input whose normalized
form contains no two adjacent whitespace characters and no occurrence of the
`feat`/`ft` pattern followed by whitespace.  (The unrestricted claim is false:
the final character strip can create adjacent spaces, or expose a `feat`/`ft`
marker that only the second pass then removes.) -/
theorem normalize_idempotent_amended (x : String)
    (h1 : noAdjWs (normalize x).data = true)
    (h2 : hasFeat (normalize x).data = false) :
    normalize (normalize x) = normalize x :=
  congrArg String.mk (normalizeL_idem_of h1 h2)

/-- Witness for the amended C2 at the concrete input `"Hello, World!"`. -/
theorem normalize_idempotent_amended_witness :
    noAdjWs (normalize "Hello, World!").data = true ∧
    hasFeat (normalize "Hello, World!").data = false ∧
    normalize (normalize "Hello, World!") = normalize "Hello, World!" :=
  ⟨by decide, by decide, normalize_idempotent_amended _ (by decide) (by decide)⟩

/-! ### Lemmas about the parsers -/

theorem mem_insertByKey {α : Type} {key : α → Int} {x y : α} :
    ∀ {l : List α}, y ∈ insertByKey key x l ↔ y = x ∨ y ∈ l
  | [] => by simp [insertByKey]
  | a :: as => by
    unfold insertByKey
    by_cases h : key x ≤ key a
    · rw [if_pos h]
      simp
    · rw [if_neg h]
      simp only [List.mem_cons, mem_insertByKey (l := as)]
      tauto

theorem mem_sortByKey {α : Type} {key : α → Int} {y : α} :
    ∀ {l : List α}, y ∈ sortByKey key l ↔ y ∈ l
  | [] => Iff.rfl
  | a :: as => by
    unfold sortByKey
    rw [mem_insertByKey, mem_sortByKey (l := as)]
    simp

theorem pairwise_insertByKey {α : Type} {key : α → Int} {x : α} :
    ∀ {l : List α}, List.Pairwise (fun a b => key a ≤ key b) l →
      List.Pairwise (fun a b => key a ≤ key b) (insertByKey key x l)
  | [], _ => List.pairwise_singleton _ _
  | a :: as, h => by
    unfold insertByKey
    rcases List.pairwise_cons.mp h with ⟨ha, has⟩
    by_cases hle : key x ≤ key a
    · rw [if_pos hle]
      refine List.pairwise_cons.mpr ⟨?_, h⟩
      intro b hb
      rcases List.mem_cons.mp hb with rfl | hb
      · exact hle
      · exact le_trans hle (ha b hb)
    · rw [if_neg hle]
      refine List.pairwise_cons.mpr ⟨?_, pairwise_insertByKey has⟩
      intro b hb
      rcases mem_insertByKey.mp hb with rfl | hb
      · exact le_of_not_le hle
      · exact ha b hb

theorem pairwise_sortByKey {α : Type} {key : α → Int} :
    ∀ (l : List α), List.Pairwise (fun a b => key a ≤ key b) (sortByKey key l)
  | [] => List.Pairwise.nil
  | a :: as => pairwise_insertByKey (pairwise_sortByKey as)

/-- `assignEnds` preserves times and texts positionally. -/
theorem assignEnds_map_tt (td : Option Int) :
    ∀ (l : List RawLine),
      (assignEnds td l).map (fun t => (t.time, t.text)) =
        l.map (fun r => (r.time, r.text))
  | [] => rfl
  | [a] => rfl
  | a :: b :: rest => by
    have ih := assignEnds_map_tt td (b :: rest)
    simp only [assignEnds, List.map_cons] at ih ⊢
    rw [ih]

theorem assignEnds_length (td : Option Int) (l : List RawLine) :
    (assignEnds td l).length = l.length := by
  have h := congrArg List.length (assignEnds_map_tt td l)
  simpa using h

theorem mem_assignEnds {td : Option Int} {l : List RawLine} {t : TimedLine}
    (h : t ∈ assignEnds td l) : ∃ r ∈ l, r.time = t.time ∧ r.text = t.text := by
  have hm : (t.time, t.text) ∈ (assignEnds td l).map (fun t => (t.time, t.text)) :=
    List.mem_map_of_mem _ h
  rw [assignEnds_map_tt] at hm
  rcases List.mem_map.mp hm with ⟨r, hr, he⟩
  exact ⟨r, hr, congrArg Prod.fst he, congrArg Prod.snd he⟩

theorem jsOrDur_falsy {td : Option Int} (h : jsTruthyDur td = false) (alt : Int) :
    jsOrDur td alt = alt := by
  cases td with
  | none => rfl
  | some d =>
    simp only [jsTruthyDur, decide_eq_false_iff_not, not_not] at h
    simp [jsOrDur, h]

theorem jsOrDur_truthy {td : Option Int} {d : Int} (h : td = some d) (hd : d ≠ 0)
    (alt : Int) : jsOrDur td alt = d := by
  subst h
  simp [jsOrDur, hd]

/-- With a falsy track duration, every produced line (non-final fed by the
next start, final fed by `time + 30000`) satisfies `time ≤ endTime`, given a
sorted input. -/
theorem assignEnds_le {td : Option Int} (hf : jsTruthyDur td = false) :
    ∀ {l : List RawLine},
      List.Pairwise (fun a b => a.time ≤ b.time) l →
      ∀ t ∈ assignEnds td l, t.time ≤ t.endTime
  | [], _, t, ht => absurd ht (List.not_mem_nil t)
  | [a], _, t, ht => by
    simp only [assignEnds, List.mem_singleton] at ht
    subst ht
    show a.time ≤ jsOrDur td (a.time + 30000)
    rw [jsOrDur_falsy hf]
    omega
  | a :: b :: rest, hp, t, ht => by
    simp only [assignEnds, List.mem_cons] at ht
    rcases ht with rfl | ht
    · exact (List.pairwise_cons.mp hp).1 b (List.mem_cons_self _ _)
    · exact assignEnds_le hf (List.pairwise_cons.mp hp).2 t ht

/-- Every non-final line satisfies `time ≤ endTime` (its end is the next
sorted start), for any track duration. -/
theorem assignEnds_init_le {td : Option Int} :
    ∀ {l : List RawLine},
      List.Pairwise (fun a b => a.time ≤ b.time) l →
      ∀ i a, (assignEnds td l).get? i = some a →
        i + 1 < (assignEnds td l).length → a.time ≤ a.endTime
  | [], _, i, a, ha, _ => by simp [assignEnds] at ha
  | [x], _, i, a, ha, hlen => by
    simp only [assignEnds, List.length_singleton] at hlen
    omega
  | x :: y :: rest, hp, i, a, ha, hlen => by
    cases i with
    | zero =>
      simp only [assignEnds, List.get?_cons_zero, Option.some.injEq] at ha
      subst ha
      exact (List.pairwise_cons.mp hp).1 y (List.mem_cons_self _ _)
    | succ j =>
      simp only [assignEnds, List.get?_cons_succ, List.length_cons] at ha hlen
      exact assignEnds_init_le (List.pairwise_cons.mp hp).2 j a ha (by omega)

/-- Consecutive lines are chained: the end of line `i` is the start of line
`i + 1`. -/
theorem assignEnds_chain {td : Option Int} :
    ∀ {l : List RawLine} {i : Nat} {a b : TimedLine},
      (assignEnds td l).get? i = some a → (assignEnds td l).get? (i + 1) = some b →
      a.endTime = b.time
  | [], i, a, b, ha, _ => by simp [assignEnds] at ha
  | [x], i, a, b, ha, hb => by
    cases i with
    | zero => simp [assignEnds] at hb
    | succ j => simp [assignEnds] at ha
  | x :: y :: rest, i, a, b, ha, hb => by
    cases i with
    | zero =>
      simp only [assignEnds, List.get?_cons_zero, List.get?_cons_succ,
        Option.some.injEq] at ha hb
      subst ha
      have htt := congrArg (fun l => l.map (fun t : TimedLine => (t.time, t.text)))
        (rfl : assignEnds td (y :: rest) = assignEnds td (y :: rest))
      have h0 : ((assignEnds td (y :: rest)).get? 0).map (fun t => t.time)
          = some y.time := by
        cases rest with
        | nil => simp [assignEnds]
        | cons z zs => simp [assignEnds]
      rw [hb] at h0
      have h0' : b.time = y.time := by
        simpa using h0
      rw [h0']
    | succ j =>
      simp only [assignEnds, List.get?_cons_succ] at ha hb
      exact assignEnds_chain ha hb

theorem getLast?_cons_of_ne_nil {α : Type} {l : List α} (a : α) (h : l ≠ []) :
    (a :: l).getLast? = l.getLast? := by
  cases l with
  | nil => exact absurd rfl h
  | cons b bs => rw [List.getLast?_cons_cons]

/-- The final line ends at `trackDuration || time + 30` (times in ms). -/
theorem assignEnds_last {td : Option Int} :
    ∀ {l : List RawLine} {a : TimedLine},
      (assignEnds td l).getLast? = some a →
      ∃ r, l.getLast? = some r ∧ a = ⟨r.time, jsOrDur td (r.time + 30000), r.text⟩
  | [], a, ha => by simp [assignEnds] at ha
  | [x], a, ha => by
    simp only [assignEnds, List.getLast?_singleton, Option.some.injEq] at ha
    exact ⟨x, rfl, ha.symm⟩
  | x :: y :: rest, a, ha => by
    rw [show assignEnds td (x :: y :: rest)
        = ⟨x.time, y.time, x.text⟩ :: assignEnds td (y :: rest) from rfl] at ha
    rw [getLast?_cons_of_ne_nil _ (by
      intro he
      have := assignEnds_length td (y :: rest)
      rw [he] at this
      simp at this)] at ha
    rcases assignEnds_last ha with ⟨r, hr, he⟩
    exact ⟨r, by rwa [getLast?_cons_of_ne_nil _ (by simp)], he⟩

theorem lrcTimeMs_nonneg (a b c : List Char) : 0 ≤ lrcTimeMs a b c :=
  Int.natCast_nonneg _

theorem lrcTsAt_nonneg {l : List Char} {t : Int} {r : List Char}
    (h : lrcTsAt l = some (t, r)) : 0 ≤ t := by
  unfold lrcTsAt at h
  repeat' split at h
  all_goals first
    | exact Option.noConfusion h
    | (simp only [Option.some.injEq, Prod.mk.injEq] at h
       rw [← h.1]
       exact lrcTimeMs_nonneg _ _ _)

theorem lrcTimestampsF_nil (fuel : Nat) : lrcTimestampsF fuel [] = ([], []) := by
  cases fuel <;> rfl

theorem lrcTimestampsF_succ (f : Nat) (c : Char) (cs : List Char) :
    lrcTimestampsF (f + 1) (c :: cs) =
      match lrcTsAt (c :: cs) with
      | some (t, rest) =>
        let p := lrcTimestampsF f rest
        (t :: p.1, p.2)
      | none => ([], c :: cs) := rfl

theorem lrcTimestampsF_nonneg :
    ∀ (fuel : Nat) (l : List Char), ∀ t ∈ (lrcTimestampsF fuel l).1, 0 ≤ t := by
  intro fuel
  induction fuel with
  | zero =>
    intro l t ht
    cases l with
    | nil => simp [lrcTimestampsF] at ht
    | cons c cs => simp [lrcTimestampsF] at ht
  | succ f ih =>
    intro l t ht
    cases l with
    | nil =>
      rw [lrcTimestampsF_nil] at ht
      simp at ht
    | cons c cs =>
      rw [lrcTimestampsF_succ] at ht
      split at ht
      next tv rest hm =>
        rcases List.mem_cons.mp ht with rfl | ht
        · exact lrcTsAt_nonneg hm
        · exact ih rest t ht
      next => simp at ht

theorem lrcTimestamps_nonneg (l : List Char) :
    ∀ t ∈ (lrcTimestamps l).1, 0 ≤ t :=
  lrcTimestampsF_nonneg l.length l

/-- Raw LRC lines always carry a non-negative time and non-empty text. -/
theorem lrcStep_raw {P : RawLine → Prop}
    (hP : ∀ (t : Int) (text : List Char), 0 ≤ t → text ≠ [] → P ⟨t, text⟩)
    {acc : MetaMap × List RawLine} {line : List Char}
    (h : ∀ r ∈ acc.2, P r) (hts : ∀ t ∈ (lrcTimestamps line).1, 0 ≤ t) :
    ∀ r ∈ (lrcStep acc line).2, P r := by
  intro r hr
  unfold lrcStep at hr
  split at hr
  · exact h r hr
  · simp only at hr
    split at hr
    · exact h r hr
    next hguard =>
      rcases List.mem_append.mp hr with h1 | h1
      · exact h r h1
      · rcases List.mem_map.mp h1 with ⟨t, ht, rfl⟩
        refine hP _ _ (hts t ht) ?_
        intro he
        rw [he] at hguard
        simp at hguard

theorem lrcCollect_raw (ls : List (List Char)) :
    ∀ r ∈ (lrcCollect ls).2, 0 ≤ r.time ∧ r.text ≠ [] := by
  unfold lrcCollect
  have main :
      ∀ (ls : List (List Char)) (acc : MetaMap × List RawLine),
        (∀ r ∈ acc.2, 0 ≤ r.time ∧ r.text ≠ []) →
        ∀ r ∈ (ls.foldl lrcStep acc).2, 0 ≤ r.time ∧ r.text ≠ [] := by
    intro ls
    induction ls with
    | nil => intro acc h; exact h
    | cons line rest ih =>
      intro acc h
      rw [List.foldl_cons]
      exact ih _ (lrcStep_raw (fun t text h1 h2 => ⟨h1, h2⟩) h
        (lrcTimestamps_nonneg line))
  exact main ls ([], []) (by intro r hr; simp at hr)

theorem mem_applyOffset {off : Int} {ls : List TimedLine} {t : TimedLine}
    (h : t ∈ applyOffset off ls) :
    ∃ u ∈ ls, t = ⟨max 0 (u.time + off), max 0 (u.endTime + off), u.text⟩ := by
  rcases List.mem_map.mp h with ⟨u, hu, he⟩
  exact ⟨u, hu, he.symm⟩

theorem applyOffset_get? (off : Int) (ls : List TimedLine) (i : Nat) :
    (applyOffset off ls).get? i =
      (ls.get? i).map fun u => ⟨max 0 (u.time + off), max 0 (u.endTime + off), u.text⟩ :=
  List.get?_map _ _ _

/-! ### Unfolding lemmas for `lrcParse` -/

theorem lrcParse_meta (content : List Char) (d : Option Int) :
    (lrcParse content d).meta = (lrcCollect (splitLinesJS content)).1 := rfl

theorem lrcParse_duration_eq (content : List Char) (d : Option Int) :
    (lrcParse content d).duration =
      (if jsTruthyDur (lrcTrackDuration d (lrcCollect (splitLinesJS content)).1)
       then lrcTrackDuration d (lrcCollect (splitLinesJS content)).1 else none) := rfl

theorem lrcParse_lines_noOffset {content : List Char} {d : Option Int}
    (h : lrcOffsetMs (lrcCollect (splitLinesJS content)).1 = none) :
    (lrcParse content d).lines =
      assignEnds (lrcTrackDuration d (lrcCollect (splitLinesJS content)).1)
        (sortByTime (lrcCollect (splitLinesJS content)).2) := by
  unfold lrcParse
  simp only [h]

theorem lrcParse_lines_offset {content : List Char} {d : Option Int} {off : Int}
    (h : lrcOffsetMs (lrcCollect (splitLinesJS content)).1 = some off) :
    (lrcParse content d).lines =
      applyOffset off
        (assignEnds (lrcTrackDuration d (lrcCollect (splitLinesJS content)).1)
          (sortByTime (lrcCollect (splitLinesJS content)).2)) := by
  unfold lrcParse
  simp only [h]

theorem lrcParse_duration_none {content : List Char} {d : Option Int}
    (h : (lrcParse content d).duration = none) :
    jsTruthyDur (lrcTrackDuration d (lrcCollect (splitLinesJS content)).1) = false := by
  rw [lrcParse_duration_eq] at h
  by_cases ht : jsTruthyDur (lrcTrackDuration d (lrcCollect (splitLinesJS content)).1) = true
  · rw [if_pos ht] at h
    cases hv : lrcTrackDuration d (lrcCollect (splitLinesJS content)).1 with
    | none => rw [hv] at ht; simp [jsTruthyDur] at ht
    | some v => rw [hv] at h; simp at h
  · exact Bool.not_eq_true _ ▸ ht

theorem lrcParse_duration_some {content : List Char} {d : Option Int} {D : Int}
    (h : (lrcParse content d).duration = some D) :
    lrcTrackDuration d (lrcCollect (splitLinesJS content)).1 = some D ∧ D ≠ 0 := by
  rw [lrcParse_duration_eq] at h
  by_cases ht : jsTruthyDur (lrcTrackDuration d (lrcCollect (splitLinesJS content)).1) = true
  · rw [if_pos ht] at h
    refine ⟨h, ?_⟩
    rw [h] at ht
    simpa [jsTruthyDur] using ht
  · rw [if_neg ht] at h
    simp at h

theorem srtTimeMs_nonneg (a b c d : List Char) : 0 ≤ srtTimeMs a b c d :=
  Int.natCast_nonneg _

theorem srtTsAt_nonneg {l : List Char} {t : Int} (h : srtTsAt l = some t) :
    0 ≤ t := by
  unfold srtTsAt at h
  repeat' split at h
  all_goals first
    | exact Option.noConfusion h
    | (simp only [Option.some.injEq] at h
       rw [← h]
       exact srtTimeMs_nonneg _ _ _ _)

theorem srtTimestamp_nonneg :
    ∀ {l : List Char} {t : Int}, srtTimestamp l = some t → 0 ≤ t
  | [], t, h => Option.noConfusion h
  | c :: cs, t, h => by
    unfold srtTimestamp at h
    split at h
    next tv hm =>
      simp only [Option.some.injEq] at h
      exact h ▸ srtTsAt_nonneg hm
    next => exact srtTimestamp_nonneg h

/-- Everything `srtBlockLine` produces: non-negative start and end, the end
taken verbatim from the range's right-hand side, text joined with single
spaces from the lines after the range line and non-empty. -/
theorem srtBlockLine_spec {b : List Char} {t : TimedLine}
    (h : srtBlockLine b = some t) :
    0 ≤ t.time ∧ 0 ≤ t.endTime ∧ t.text ≠ [] ∧
    ∃ timeLine rest,
      srtFindTimeLine (splitLinesJS b) = some (timeLine, rest) ∧
      srtTimestamp (trimJS (beforeArrow timeLine)) = some t.time ∧
      (∃ r, afterArrow timeLine = some r ∧
        srtTimestamp (trimJS (beforeArrow r)) = some t.endTime) ∧
      t.text = trimJS (List.intercalate [' '] rest) := by
  unfold srtBlockLine at h
  split at h
  · exact absurd h (by simp)
  split at h
  · exact absurd h (by simp)
  next timeLine rest hfind =>
    split at h
    next tv ev hts hte =>
      split at h
      · exact absurd h (by simp)
      next hne =>
        simp only [Option.some.injEq] at h
        subst h
        refine ⟨srtTimestamp_nonneg hts, ?_, ?_, timeLine, rest, hfind, hts, ?_, rfl⟩
        · split at hte
          next r har =>
            exact srtTimestamp_nonneg hte
          next => exact Option.noConfusion hte
        · simpa using hne
        · split at hte
          next r har => exact ⟨r, har, hte⟩
          next => exact Option.noConfusion hte
    next => exact absurd h (by simp)

theorem mem_srtParse_lines {content : List Char} {d : Option Int} {t : TimedLine}
    (h : t ∈ (srtParse content d).lines) :
    ∃ b ∈ splitBlank (trimJS content), srtBlockLine b = some t := by
  have h1 : t ∈ (splitBlank (trimJS content)).filterMap srtBlockLine := by
    have := mem_sortByKey.mp h
    exact this
  exact List.mem_filterMap.mp h1

theorem max0_mono {a b off : Int} (h : a ≤ b) :
    max 0 (a + off) ≤ max 0 (b + off) :=
  max_le_max le_rfl (by omega)

/-- C3: Parser A (LRC), on `"[00:01.00]Hello\n[00:03.50]World"` with no
caller duration and no length directive, returns exactly the two lines
`{1.0s, 3.5s, "Hello"}` and `{3.5s, 33.5s, "World"}` (milliseconds here);
in general (stated offset-free, the offset pass shifts both fields equally)
each non-final line's `endTime` is the next line's `time`, and the final
line's `endTime` is the caller duration when supplied (non-zero), else the
`length` directive parsed as `mm:ss`, else its `time` plus 30 seconds. -/
theorem lrc_parser_a_spec :
    (lrcParse ("[00:01.00]Hello\n[00:03.50]World").data none =
      ⟨[], [⟨1000, 3500, "Hello".data⟩, ⟨3500, 33500, "World".data⟩], none⟩) ∧
    (∀ content d i a b,
      lrcOffsetMs (lrcParse content d).meta = none →
      (lrcParse content d).lines.get? i = some a →
      (lrcParse content d).lines.get? (i + 1) = some b →
      a.endTime = b.time) ∧
    (∀ content d a,
      lrcOffsetMs (lrcParse content d).meta = none →
      (lrcParse content d).lines.getLast? = some a →
      ((lrcParse content d).duration = none → a.endTime = a.time + 30000) ∧
      ∀ D, (lrcParse content d).duration = some D → a.endTime = D) ∧
    (∀ content v, v ≠ 0 → (lrcParse content (some v)).duration = some v) ∧
    (∀ content L, lrcLengthDir (lrcParse content none).meta = some L → L ≠ 0 →
      (lrcParse content none).duration = some L) := by
  refine ⟨by decide, ?_, ?_, ?_, ?_⟩
  · intro content d i a b hoff ha hb
    rw [lrcParse_meta] at hoff
    rw [lrcParse_lines_noOffset hoff] at ha hb
    exact assignEnds_chain ha hb
  · intro content d a hoff ha
    rw [lrcParse_meta] at hoff
    rw [lrcParse_lines_noOffset hoff] at ha
    rcases assignEnds_last ha with ⟨r, _, rfl⟩
    constructor
    · intro hdur
      have hf := lrcParse_duration_none hdur
      show jsOrDur _ (r.time + 30000) = r.time + 30000
      rw [jsOrDur_falsy hf]
    · intro D hdur
      rcases lrcParse_duration_some hdur with ⟨htd, hD⟩
      show jsOrDur _ (r.time + 30000) = D
      rw [jsOrDur_truthy htd hD]
  · intro content v hv
    rw [lrcParse_duration_eq]
    have htd : lrcTrackDuration (some v) (lrcCollect (splitLinesJS content)).1
        = some v := by
      unfold lrcTrackDuration
      rw [if_pos (by simp [jsTruthyDur, hv])]
    rw [htd, if_pos (by simp [jsTruthyDur, hv])]
  · intro content L hL hL0
    rw [lrcParse_meta] at hL
    rw [lrcParse_duration_eq]
    have htd : lrcTrackDuration none (lrcCollect (splitLinesJS content)).1
        = some L := by
      unfold lrcTrackDuration
      rw [if_neg (by simp [jsTruthyDur]), hL]
    rw [htd, if_pos (by simp [jsTruthyDur, hL0])]

/-- Witness for C3's general clauses at the concrete example (the chained
end time at index 0, and the caller-duration priority with 200 seconds). -/
theorem lrc_parser_a_spec_witness :
    (⟨1000, 3500, ("Hello".data : List Char)⟩ : TimedLine).endTime =
      (⟨3500, 33500, ("World".data : List Char)⟩ : TimedLine).time ∧
    (lrcParse ("[00:01.00]Hello\n[00:03.50]World").data (some 200000)).duration
      = some 200000 :=
  ⟨lrc_parser_a_spec.2.1 ("[00:01.00]Hello\n[00:03.50]World").data none 0 _ _
      (by decide) (by decide) (by decide),
   lrc_parser_a_spec.2.2.2.1 ("[00:01.00]Hello\n[00:03.50]World").data 200000
      (by decide)⟩

/-- C4 counterexample: the invariant `endTime ≥ time` fails — Parser B copies
a reversed range verbatim, producing `{time: 5s, endTime: 1s}`. -/
theorem timedline_invariant_counterexample :
    ∃ t ∈ (srtParse ("1\n00:00:05,000 --> 00:00:01,000\nX").data none).lines,
      ¬t.time ≤ t.endTime := by decide

/-- C4 (amended): every line of both parsers has `time ≥ 0` and non-empty
text; `endTime ≥ time` holds for every line of Parser A whenever the document
records no duration, and for every non-final Parser A line unconditionally;
Parser B guarantees only `endTime ≥ 0` because it copies the block's range
verbatim (a reversed range yields `endTime < time`, and a Parser A
duration/length shorter than the last timestamp does the same for the final
line). -/
theorem timedline_invariants :
    (∀ content d, ∀ t ∈ (lrcParse content d).lines, 0 ≤ t.time ∧ t.text ≠ []) ∧
    (∀ content d, (lrcParse content d).duration = none →
      ∀ t ∈ (lrcParse content d).lines, t.time ≤ t.endTime) ∧
    (∀ content d i a, (lrcParse content d).lines.get? i = some a →
      i + 1 < (lrcParse content d).lines.length → a.time ≤ a.endTime) ∧
    (∀ content d, ∀ t ∈ (srtParse content d).lines,
      0 ≤ t.time ∧ 0 ≤ t.endTime ∧ t.text ≠ []) := by
  have hpre : ∀ (content : List Char) (td : Option Int) (t : TimedLine),
      t ∈ assignEnds td (sortByTime (lrcCollect (splitLinesJS content)).2) →
      0 ≤ t.time ∧ t.text ≠ [] := by
    intro content td t ht
    rcases mem_assignEnds ht with ⟨r, hr, htime, htext⟩
    have hr2 : r ∈ (lrcCollect (splitLinesJS content)).2 := mem_sortByKey.mp hr
    have := lrcCollect_raw (splitLinesJS content) r hr2
    rw [htime, htext] at this
    exact this
  refine ⟨?_, ?_, ?_, ?_⟩
  · intro content d t ht
    cases hoff : lrcOffsetMs (lrcCollect (splitLinesJS content)).1 with
    | none =>
      rw [lrcParse_lines_noOffset hoff] at ht
      exact hpre content _ t ht
    | some off =>
      rw [lrcParse_lines_offset hoff] at ht
      rcases mem_applyOffset ht with ⟨u, hu, rfl⟩
      exact ⟨le_max_left _ _, (hpre content _ u hu).2⟩
  · intro content d hdur t ht
    have hf := lrcParse_duration_none hdur
    have hsorted : List.Pairwise (fun a b : RawLine => a.time ≤ b.time)
        (sortByTime (lrcCollect (splitLinesJS content)).2) :=
      pairwise_sortByKey _
    cases hoff : lrcOffsetMs (lrcCollect (splitLinesJS content)).1 with
    | none =>
      rw [lrcParse_lines_noOffset hoff] at ht
      exact assignEnds_le hf hsorted t ht
    | some off =>
      rw [lrcParse_lines_offset hoff] at ht
      rcases mem_applyOffset ht with ⟨u, hu, rfl⟩
      exact max0_mono (assignEnds_le hf hsorted u hu)
  · intro content d i a ha hlen
    have hsorted : List.Pairwise (fun x y : RawLine => x.time ≤ y.time)
        (sortByTime (lrcCollect (splitLinesJS content)).2) :=
      pairwise_sortByKey _
    cases hoff : lrcOffsetMs (lrcCollect (splitLinesJS content)).1 with
    | none =>
      rw [lrcParse_lines_noOffset hoff] at ha hlen
      exact assignEnds_init_le hsorted i a ha hlen
    | some off =>
      rw [lrcParse_lines_offset hoff] at ha hlen
      rw [applyOffset_get?] at ha
      cases hu : (assignEnds (lrcTrackDuration d (lrcCollect (splitLinesJS content)).1)
          (sortByTime (lrcCollect (splitLinesJS content)).2)).get? i with
      | none => rw [hu] at ha; exact absurd ha (by simp)
      | some u =>
        rw [hu] at ha
        have ha2 : some (⟨max 0 (u.time + off), max 0 (u.endTime + off), u.text⟩
            : TimedLine) = some a := ha
        have ha3 := Option.some.inj ha2
        subst ha3
        have hlen2 : i + 1 < (assignEnds
            (lrcTrackDuration d (lrcCollect (splitLinesJS content)).1)
            (sortByTime (lrcCollect (splitLinesJS content)).2)).length := by
          unfold applyOffset at hlen
          rwa [List.length_map] at hlen
        exact max0_mono (assignEnds_init_le hsorted i u hu hlen2)
  · intro content d t ht
    rcases mem_srtParse_lines ht with ⟨b, _, hb⟩
    rcases srtBlockLine_spec hb with ⟨h1, h2, h3, _⟩
    exact ⟨h1, h2, h3⟩

/-- Witness for the amended C4 at concrete lines of both parsers. -/
theorem timedline_invariants_witness :
    (0 ≤ (⟨1000, 3500, ("Hello".data : List Char)⟩ : TimedLine).time ∧
      (⟨1000, 3500, ("Hello".data : List Char)⟩ : TimedLine).text ≠ []) ∧
    (⟨1000, 3500, ("Hello".data : List Char)⟩ : TimedLine).time ≤
      (⟨1000, 3500, ("Hello".data : List Char)⟩ : TimedLine).endTime ∧
    (0 ≤ (⟨1000, 3000, ("Hello world".data : List Char)⟩ : TimedLine).time ∧
      0 ≤ (⟨1000, 3000, ("Hello world".data : List Char)⟩ : TimedLine).endTime ∧
      (⟨1000, 3000, ("Hello world".data : List Char)⟩ : TimedLine).text ≠ []) :=
  ⟨timedline_invariants.1 ("[00:01.00]Hello\n[00:03.50]World").data none
      ⟨1000, 3500, "Hello".data⟩ (by decide),
   timedline_invariants.2.1 ("[00:01.00]Hello\n[00:03.50]World").data none
      (by decide) ⟨1000, 3500, "Hello".data⟩ (by decide),
   timedline_invariants.2.2.2 ("1\n00:00:01,000 --> 00:00:03,000\nHello world").data
      none ⟨1000, 3000, "Hello world".data⟩ (by decide)⟩

/-- C9: Parser B (SRT), on `"1\n00:00:01,000 --> 00:00:03,000\nHello world"`,
returns exactly one line `{1.0s, 3.0s, "Hello world"}`; in general every
output line's `endTime` is parsed from the right-hand side of its block's
range line, the text is the lines after the range line joined with single
spaces, and blocks without a parseable range or with empty resulting text
contribute nothing. -/
theorem srt_parser_b_spec :
    (srtParse ("1\n00:00:01,000 --> 00:00:03,000\nHello world").data none =
      ⟨[], [⟨1000, 3000, "Hello world".data⟩], none⟩) ∧
    (∀ content d, ∀ t ∈ (srtParse content d).lines,
      ∃ b ∈ splitBlank (trimJS content),
        srtBlockLine b = some t ∧
        ∃ timeLine rest,
          srtFindTimeLine (splitLinesJS b) = some (timeLine, rest) ∧
          srtTimestamp (trimJS (beforeArrow timeLine)) = some t.time ∧
          (∃ r, afterArrow timeLine = some r ∧
            srtTimestamp (trimJS (beforeArrow r)) = some t.endTime) ∧
          t.text = trimJS (List.intercalate [' '] rest) ∧ t.text ≠ []) ∧
    (∀ b, srtFindTimeLine (splitLinesJS b) = none → srtBlockLine b = none) ∧
    (∀ b timeLine rest, srtFindTimeLine (splitLinesJS b) = some (timeLine, rest) →
      trimJS (List.intercalate [' '] rest) = [] → srtBlockLine b = none) := by
  refine ⟨by decide, ?_, ?_, ?_⟩
  · intro content d t ht
    rcases mem_srtParse_lines ht with ⟨b, hbm, hb⟩
    rcases srtBlockLine_spec hb with ⟨_, _, h3, timeLine, rest, hfind, hts, hte, htext⟩
    exact ⟨b, hbm, hb, timeLine, rest, hfind, hts, hte, htext, h3⟩
  · intro b hfind
    unfold srtBlockLine
    by_cases hlen : (splitLinesJS b).length < 2
    · rw [if_pos hlen]
    · rw [if_neg hlen, hfind]
  · intro b timeLine rest hfind htxt
    by_cases hlen : (splitLinesJS b).length < 2
    · unfold srtBlockLine
      rw [if_pos hlen]
    · have hred : srtBlockLine b =
          match srtTimestamp (trimJS (beforeArrow timeLine)),
                (match afterArrow timeLine with
                 | some r => srtTimestamp (trimJS (beforeArrow r))
                 | none => none) with
          | some t, some e =>
            if (trimJS (List.intercalate [' '] rest)).isEmpty then none
            else some ⟨t, e, trimJS (List.intercalate [' '] rest)⟩
          | _, _ => none := by
        unfold srtBlockLine
        rw [if_neg hlen, hfind]
      rw [hred]
      split
      · rw [if_pos (by simp [htxt])]
      · rfl

/-- Witness for C9's general clauses at the concrete block. -/
theorem srt_parser_b_spec_witness :
    (∃ b ∈ splitBlank (trimJS ("1\n00:00:01,000 --> 00:00:03,000\nHello world").data),
      srtBlockLine b = some ⟨1000, 3000, "Hello world".data⟩ ∧
      ∃ timeLine rest,
        srtFindTimeLine (splitLinesJS b) = some (timeLine, rest) ∧
        srtTimestamp (trimJS (beforeArrow timeLine)) =
          some (⟨1000, 3000, ("Hello world".data : List Char)⟩ : TimedLine).time ∧
        (∃ r, afterArrow timeLine = some r ∧
          srtTimestamp (trimJS (beforeArrow r)) =
            some (⟨1000, 3000, ("Hello world".data : List Char)⟩ : TimedLine).endTime) ∧
        (⟨1000, 3000, ("Hello world".data : List Char)⟩ : TimedLine).text =
          trimJS (List.intercalate [' '] rest) ∧
        (⟨1000, 3000, ("Hello world".data : List Char)⟩ : TimedLine).text ≠ []) ∧
    srtBlockLine ("no range here".data) = none :=
  ⟨srt_parser_b_spec.2.1 ("1\n00:00:01,000 --> 00:00:03,000\nHello world").data
      none ⟨1000, 3000, "Hello world".data⟩ (by decide),
   srt_parser_b_spec.2.2.1 ("no range here".data) (by decide)⟩

theorem except_map_ok {α β : Type} {f : α → β} {x : Except Unit α} {b : β}
    (h : x.map f = .ok b) : ∃ a, x = .ok a ∧ f a = b := by
  cases x with
  | error e => simp [Except.map] at h
  | ok a => exact ⟨a, rfl, by simpa [Except.map] using h⟩


/-- C6: decoding never escapes the message handler: a malformed datagram
(thrown decode exception or `null` result, e.g. a missing null terminator)
is dropped without touching the bridge state or emitting any event, and the
rest of the stream is processed exactly as if the bad datagram were absent. -/
theorem osc_decode_errors_nonfatal :
    (∀ buf : List Nat, 0 ∉ buf → parseOscMessage buf = .ok none) ∧
    (∀ st buf, oscMalformed buf → processDatagram st buf = (st, [])) ∧
    (∀ st pre post bad, oscMalformed bad →
      processDatagrams st (pre ++ bad :: post) = processDatagrams st (pre ++ post)) := by
  refine ⟨?_, ?_, ?_⟩
  · intro buf h
    have hidx : idxOfZero buf 0 = none := by
      unfold idxOfZero
      rw [List.drop_zero, List.findIdx?_eq_none_iff.mpr]
      · rfl
      · intro x hx
        by_cases hx0 : x = 0
        · exact absurd (hx0 ▸ hx) h
        · simpa using hx0
    unfold parseOscMessage
    rw [hidx]
  · intro st buf h
    unfold processDatagram
    rcases h with h | h <;> rw [h]
  · intro st pre post bad h
    have hstep : ∀ s, processDatagram s bad = (s, []) := by
      intro s
      unfold processDatagram
      rcases h with h | h <;> rw [h]
    induction pre generalizing st with
    | nil =>
      show processDatagrams st (bad :: post) = processDatagrams st post
      unfold processDatagrams
      rw [hstep st]
      cases post with
      | nil => rfl
      | cons c cs => rfl
    | cons q qs ih =>
      show processDatagrams st (q :: (qs ++ bad :: post))
          = processDatagrams st (q :: (qs ++ post))
      simp only [processDatagrams]
      rw [ih]

/-- Witness for C6 at the concrete malformed datagram `[1, 2, 3]` (no null
terminator anywhere). -/
theorem osc_decode_errors_nonfatal_witness :
    parseOscMessage [1, 2, 3] = .ok none ∧
    processDatagram initBridge [1, 2, 3] = (initBridge, []) ∧
    processDatagrams initBridge ([] ++ [1, 2, 3] :: []) =
      processDatagrams initBridge ([] ++ []) :=
  ⟨osc_decode_errors_nonfatal.1 [1, 2, 3] (by decide),
   osc_decode_errors_nonfatal.2.1 initBridge [1, 2, 3] (Or.inr rfl),
   osc_decode_errors_nonfatal.2.2 initBridge [] [] [1, 2, 3] (Or.inr rfl)⟩

/-- C7: the argument loop consumes 4 bytes and yields one argument for `'f'`
(big-endian float32 pattern) and `'i'` (big-endian two's-complement int32),
a null-terminated 4-byte-padded region and one argument for `'s'`, and for
any other tag byte yields no argument and advances nothing — so the argument
count equals the number of `f`/`i`/`s` tags, not the tag count. -/
theorem osc_tag_consumption :
    (∀ buf tags off args o, readArgs buf tags off = .ok (args, o) →
      args.length = (tags.filter fun t => t = tagF || t = tagI || t = tagS).length) ∧
    (∀ buf ts off, off + 4 ≤ (buf : List Nat).length →
      readArgs buf (tagF :: ts) off =
        (readArgs buf ts (off + 4)).map
          (fun p => (.float (word32 buf off) :: p.1, p.2))) ∧
    (∀ buf ts off, off + 4 ≤ (buf : List Nat).length →
      readArgs buf (tagI :: ts) off =
        (readArgs buf ts (off + 4)).map
          (fun p => (.int (toInt32 (word32 buf off)) :: p.1, p.2))) ∧
    (∀ buf ts off, readArgs buf (tagS :: ts) off =
      (readArgs buf ts (pad4 ((idxOfZero buf off).getD (buf : List Nat).length + 1))).map
        (fun p =>
          (.str (slice buf off ((idxOfZero buf off).getD buf.length)) :: p.1, p.2))) ∧
    (∀ t : Nat, ¬(t = tagF ∨ t = tagI ∨ t = tagS) →
      ∀ buf ts off, readArgs buf (t :: ts) off = readArgs buf ts off) := by
  refine ⟨?_, ?_, ?_, ?_, ?_⟩
  · intro buf tags
    induction tags with
    | nil =>
      intro off args o h
      simp only [readArgs] at h
      obtain ⟨rfl, rfl⟩ : args = [] ∧ off = o := by
        have := Except.ok.inj h
        exact ⟨(Prod.mk.injEq .. ▸ this).1.symm, (Prod.mk.injEq .. ▸ this).2⟩
      rfl
    | cons t ts ih =>
      intro off args o h
      unfold readArgs at h
      by_cases hf : t = tagF
      · rw [if_pos hf] at h
        split at h
        · rcases except_map_ok h with ⟨p, hp, hfp⟩
          have : OscArg.float (word32 buf off) :: p.1 = args ∧ p.2 = o :=
            ⟨(Prod.mk.injEq .. ▸ hfp).1, (Prod.mk.injEq .. ▸ hfp).2⟩
          rw [← this.1, List.filter_cons_of_pos (by simp [hf])]
          simp only [List.length_cons]
          rw [ih _ p.1 p.2 (by rw [hp])]
        · exact Except.noConfusion h
      · rw [if_neg hf] at h
        by_cases hi : t = tagI
        · rw [if_pos hi] at h
          split at h
          · rcases except_map_ok h with ⟨p, hp, hfp⟩
            have : OscArg.int (toInt32 (word32 buf off)) :: p.1 = args ∧ p.2 = o :=
              ⟨(Prod.mk.injEq .. ▸ hfp).1, (Prod.mk.injEq .. ▸ hfp).2⟩
            rw [← this.1, List.filter_cons_of_pos (by simp [hi])]
            simp only [List.length_cons]
            rw [ih _ p.1 p.2 (by rw [hp])]
          · exact Except.noConfusion h
        · rw [if_neg hi] at h
          by_cases hs : t = tagS
          · rw [if_pos hs] at h
            rcases except_map_ok h with ⟨p, hp, hfp⟩
            have : OscArg.str (slice buf off ((idxOfZero buf off).getD buf.length))
                :: p.1 = args ∧ p.2 = o :=
              ⟨(Prod.mk.injEq .. ▸ hfp).1, (Prod.mk.injEq .. ▸ hfp).2⟩
            rw [← this.1, List.filter_cons_of_pos (by simp [hs])]
            simp only [List.length_cons]
            rw [ih _ p.1 p.2 (by rw [hp])]
          · rw [if_neg hs] at h
            rw [List.filter_cons_of_neg (by simp [hf, hi, hs])]
            exact ih _ args o h
  · intro buf ts off hb
    conv_lhs => unfold readArgs
    rw [if_pos rfl, if_pos hb]
  · intro buf ts off hb
    conv_lhs => unfold readArgs
    rw [if_neg (by decide), if_pos rfl, if_pos hb]
  · intro buf ts off
    conv_lhs => unfold readArgs
    rw [if_neg (by decide), if_neg (by decide), if_pos rfl]
  · intro t hts buf ts off
    push_neg at hts
    conv_lhs => unfold readArgs
    rw [if_neg hts.1, if_neg hts.2.1, if_neg hts.2.2]

/-- Witness for C7 at concrete buffers: one unknown tag consumes nothing,
an in-range `'f'` consumes four bytes, and a mixed tag string yields one
argument per known tag. -/
theorem osc_tag_consumption_witness :
    readArgs [0, 0, 0, 0] [tagF] 0 =
      (readArgs [0, 0, 0, 0] [] 4).map
        (fun p => (.float (word32 [0, 0, 0, 0] 0) :: p.1, p.2)) ∧
    readArgs [9, 9] [0x78] 0 = readArgs [9, 9] [] 0 ∧
    ([OscArg.float 0] : List OscArg).length =
      (([tagF, 0x78] : List Nat).filter fun t =>
        t = tagF || t = tagI || t = tagS).length :=
  ⟨osc_tag_consumption.2.1 [0, 0, 0, 0] [] 0 (by decide),
   osc_tag_consumption.2.2.2.2 0x78 (by decide) [9, 9] [] 0,
   osc_tag_consumption.1 [0, 0, 0, 0] [tagF, 0x78] 0 [.float 0] 4 rfl⟩

/-! ### Debounce helper lemmas -/

theorem truthy_str {l : List Nat} (h : l ≠ []) : truthyArg (.str l) = true := by
  cases l with
  | nil => exact absurd rfl h
  | cons x xs => rfl

theorem handleOsc_title (s : Bridge) (v : OscArg) (hv : truthyArg v = true) :
    handleOsc s ⟨addrTitle, [v]⟩ = (checkTrackChange { s with title := v }, []) := by
  unfold handleOsc
  simp [hv]

theorem handleOsc_artist (s : Bridge) (v : OscArg) (hv : truthyArg v = true) :
    handleOsc s ⟨addrArtist, [v]⟩ = (checkTrackChange { s with artist := v }, []) := by
  have hne : ¬(addrArtist = addrTitle) := by decide
  unfold handleOsc
  simp [hv, hne]

theorem checkTrackChange_arm {s : Bridge}
    (hc : keyOf s.artist s.title ≠ s.lastTrackKey ∧ truthyArg s.artist = true ∧
      truthyArg s.title = true) :
    checkTrackChange s =
      { s with pending := some s.nextTimer, nextTimer := s.nextTimer + 1 } := by
  unfold checkTrackChange
  rw [if_pos hc]

theorem checkTrackChange_skip {s : Bridge}
    (hc : ¬(keyOf s.artist s.title ≠ s.lastTrackKey ∧ truthyArg s.artist = true ∧
      truthyArg s.title = true)) :
    checkTrackChange s = s := by
  unfold checkTrackChange
  rw [if_neg hc]

theorem checkTrackChange_fields (s : Bridge) :
    (checkTrackChange s).artist = s.artist ∧ (checkTrackChange s).title = s.title ∧
    (checkTrackChange s).lastTrackKey = s.lastTrackKey ∧
    (checkTrackChange s).pending = s.pending ∨
      (checkTrackChange s).pending = some s.nextTimer := by
  unfold checkTrackChange
  split
  · right; rfl
  · left; exact ⟨rfl, rfl, rfl, rfl⟩

theorem fireTimer_stale {s : Bridge} {m : Nat} (h : ¬s.pending = some m) :
    fireTimer s m = (s, []) := by
  unfold fireTimer
  rw [if_neg h]

theorem fireTimer_hit {s : Bridge} {m : Nat} (h : s.pending = some m)
    (hc : keyOf s.artist s.title ≠ s.lastTrackKey ∧ truthyArg s.artist = true ∧
      truthyArg s.title = true) :
    fireTimer s m =
      ({ s with pending := none, lastTrackKey := keyOf s.artist s.title },
        [.trackChanged s.artist s.title]) := by
  unfold fireTimer
  rw [if_pos h, if_pos hc]

/-- C5: for a genuinely new track (candidate key differs from the last
confirmed one) whose artist and title updates both arrive within the
debounce window (both updates precede any timer fire, and firing the
replaced timer is a cancelled no-op), exactly one `trackChanged` event is
emitted, carrying both populated fields, at the fire of the single armed
timer; the key is then recorded, and re-sending the same artist/title pair
arms no timer and can produce no further event. -/
theorem track_change_debounce (s0 : Bridge) (a t : List Nat)
    (hp : s0.pending = none) (ha : a ≠ []) (ht : t ≠ [])
    (hk : keyOf (.str a) (.str t) ≠ s0.lastTrackKey) :
    ∃ sA s1 s2 s3 s4 n,
      handleOsc s0 ⟨addrArtist, [.str a]⟩ = (sA, []) ∧
      handleOsc sA ⟨addrTitle, [.str t]⟩ = (s1, []) ∧
      s1.pending = some n ∧
      (∀ m, m ≠ n → fireTimer s1 m = (s1, [])) ∧
      fireTimer s1 n = (s2, [.trackChanged (.str a) (.str t)]) ∧
      s2.lastTrackKey = keyOf (.str a) (.str t) ∧
      s2.pending = none ∧
      handleOsc s2 ⟨addrArtist, [.str a]⟩ = (s3, []) ∧
      handleOsc s3 ⟨addrTitle, [.str t]⟩ = (s4, []) ∧
      s4.pending = none ∧
      (∀ m, (fireTimer s4 m).2 = []) := by
  have haT := truthy_str ha
  have htT := truthy_str ht
  set sA := checkTrackChange { s0 with artist := OscArg.str a } with hsAdef
  have hstep1 : handleOsc s0 ⟨addrArtist, [.str a]⟩ = (sA, []) :=
    handleOsc_artist _ _ haT
  have hsA_art : sA.artist = .str a := by
    rw [hsAdef]; unfold checkTrackChange; split <;> rfl
  have hsA_k : sA.lastTrackKey = s0.lastTrackKey := by
    rw [hsAdef]; unfold checkTrackChange; split <;> rfl
  have hcond : keyOf ({ sA with title := OscArg.str t }).artist
      ({ sA with title := OscArg.str t }).title
        ≠ ({ sA with title := OscArg.str t }).lastTrackKey ∧
      truthyArg ({ sA with title := OscArg.str t }).artist = true ∧
      truthyArg ({ sA with title := OscArg.str t }).title = true := by
    refine ⟨?_, ?_, htT⟩
    · show keyOf sA.artist (OscArg.str t) ≠ sA.lastTrackKey
      rw [hsA_art, hsA_k]
      exact hk
    · show truthyArg sA.artist = true
      rw [hsA_art]
      exact haT
  set s1 := ({ sA with title := OscArg.str t, pending := some sA.nextTimer, nextTimer := sA.nextTimer + 1 } : Bridge) with hs1def
  have hstep2 : handleOsc sA ⟨addrTitle, [.str t]⟩ = (s1, []) := by
    rw [handleOsc_title _ _ htT, checkTrackChange_arm hcond]
  have hs1p : s1.pending = some sA.nextTimer := rfl
  have h1a : s1.artist = OscArg.str a := hsA_art
  have h1k : s1.lastTrackKey = s0.lastTrackKey := hsA_k
  have hfirecond : keyOf s1.artist s1.title ≠ s1.lastTrackKey ∧
      truthyArg s1.artist = true ∧ truthyArg s1.title = true := by
    refine ⟨?_, ?_, htT⟩
    · show keyOf sA.artist (OscArg.str t) ≠ sA.lastTrackKey
      rw [hsA_art, hsA_k]
      exact hk
    · show truthyArg sA.artist = true
      rw [hsA_art]
      exact haT
  set s2 := ({ s1 with pending := none, lastTrackKey := keyOf (OscArg.str a) (OscArg.str t) } : Bridge) with hs2def
  set s3 := ({ s2 with artist := OscArg.str a } : Bridge) with hs3def
  set s4 := ({ s3 with title := OscArg.str t } : Bridge) with hs4def
  refine ⟨sA, s1, s2, s3, s4, sA.nextTimer, hstep1, hstep2, hs1p, ?_, ?_, rfl, rfl, ?_, ?_, rfl, ?_⟩
  · intro m hm
    exact fireTimer_stale fun hcontra => hm (Option.some.inj hcontra).symm
  · rw [fireTimer_hit hs1p hfirecond, hs2def, h1a,
      show s1.title = OscArg.str t from rfl]
  · rw [handleOsc_artist _ _ haT, checkTrackChange_skip fun hc => hc.1 rfl, hs3def]
  · rw [handleOsc_title _ _ htT, checkTrackChange_skip fun hc => hc.1 rfl, hs4def]
  · intro m
    rw [fireTimer_stale fun hcontra => Option.noConfusion hcontra]

/-- Witness for C5: a fresh bridge receiving `"A"` then `"B"` (ASCII bytes
`[65]`, `[66]`). -/
theorem track_change_debounce_witness :
    initBridge.pending = none ∧ ([65] : List Nat) ≠ [] ∧ ([66] : List Nat) ≠ [] ∧
    keyOf (.str [65]) (.str [66]) ≠ initBridge.lastTrackKey ∧
    ∃ sA s1 s2 s3 s4 n,
      handleOsc initBridge ⟨addrArtist, [.str [65]]⟩ = (sA, []) ∧
      handleOsc sA ⟨addrTitle, [.str [66]]⟩ = (s1, []) ∧
      s1.pending = some n ∧
      (∀ m, m ≠ n → fireTimer s1 m = (s1, [])) ∧
      fireTimer s1 n = (s2, [.trackChanged (.str [65]) (.str [66])]) ∧
      s2.lastTrackKey = keyOf (.str [65]) (.str [66]) ∧
      s2.pending = none ∧
      handleOsc s2 ⟨addrArtist, [.str [65]]⟩ = (s3, []) ∧
      handleOsc s3 ⟨addrTitle, [.str [66]]⟩ = (s4, []) ∧
      s4.pending = none ∧
      (∀ m, (fireTimer s4 m).2 = []) :=
  ⟨rfl, by decide, by decide, by decide,
   track_change_debounce initBridge [65] [66] rfl (by decide) (by decide) (by decide)⟩

/-! ### Lemmas for the resolver claims -/

theorem enterStep_inv {n : Nat} {s s2 : MutexState} {i : Nat}
    (hInv : MutexInv n s) (h : enterStep s i = some s2) :
    MutexInv n s2 ∧ s2.calls.get? i = some (.waiting 0) ∧
      ∀ j, j ≠ i → s2.calls.get? j = s.calls.get? j := by
  obtain ⟨hlib, hlen, hmem, hcase⟩ := hInv
  unfold enterStep at h
  cases hci : s.calls.get? i with
  | none =>
    rw [hci] at h
    exact Option.noConfusion h
  | some c =>
    rw [hci] at h
    cases c with
    | waiting r => exact Option.noConfusion h
    | done r => exact Option.noConfusion h
    | start =>
      rw [hlib] at h
      have hilt : i < s.calls.length := (List.get?_eq_some.mp hci).1
      cases hp : s.pending with
      | some r =>
        rw [hp] at h
        have hr0 : r = 0 := by
          rcases hcase with ⟨hpn, _⟩ | ⟨hps, _⟩
          · rw [hpn] at hp
            exact Option.noConfusion hp
          · exact (Option.some.inj (hps.symm.trans hp)).symm
        subst hr0
        have hs2 : s2 = { lib := none, pending := some 0, nextId := s.nextId, started := s.started, calls := s.calls.set i (.waiting 0) } :=
          (Option.some.inj h).symm
        subst hs2
        refine ⟨⟨rfl, by rw [List.length_set]; exact hlen, ?_, ?_⟩, ?_, ?_⟩
        · intro c hc
          rcases List.mem_or_eq_of_mem_set hc with hc2 | rfl
          · exact hmem c hc2
          · exact Or.inr rfl
        · rcases hcase with ⟨hpn, _⟩ | ⟨hps, hid, hst⟩
          · rw [hpn] at hp
            exact absurd hp (by simp)
          · exact Or.inr ⟨rfl, hid, hst⟩
        · rw [List.get?_set_eq, hci]
          rfl
        · intro j hj
          exact List.get?_set_ne _ _ (fun he => hj he.symm)
      | none =>
        rw [hp] at h
        rcases hcase with ⟨hpn, hid, hst, hall⟩ | ⟨hps, _⟩
        · have hs2 : s2 = { lib := none, pending := some s.nextId, nextId := s.nextId + 1, started := s.started ++ [s.nextId], calls := s.calls.set i (.waiting s.nextId) } :=
            (Option.some.inj h).symm
          subst hs2
          refine ⟨⟨rfl, by rw [List.length_set]; exact hlen, ?_, ?_⟩, ?_, ?_⟩
          · intro c hc
            rcases List.mem_or_eq_of_mem_set hc with hc2 | rfl
            · exact hmem c hc2
            · exact Or.inr (by rw [hid])
          · refine Or.inr ⟨by rw [hid], by rw [hid], ?_⟩
            rw [hst, hid]
            rfl
          · rw [List.get?_set_eq, hci, hid]
            rfl
          · intro j hj
            exact List.get?_set_ne _ _ (fun he => hj he.symm)
        · rw [hps] at hp
          exact Option.noConfusion hp

theorem runActs_enters {n : Nat} :
    ∀ (acts : List RAct) (s s1 : MutexState), MutexInv n s →
      (∀ a ∈ acts, ∃ i, a = .enter i) →
      runActs s acts = some s1 →
      MutexInv n s1 ∧
      (∀ j, s.calls.get? j = some (.waiting 0) →
        s1.calls.get? j = some (.waiting 0)) ∧
      (∀ j, RAct.enter j ∈ acts → s1.calls.get? j = some (.waiting 0))
  | [], s, s1, hInv, _, hrun => by
    simp only [runActs, Option.some.injEq] at hrun
    subst hrun
    exact ⟨hInv, fun j h => h, fun j hj => absurd hj (List.not_mem_nil _)⟩
  | a :: as, s, s1, hInv, hen, hrun => by
    obtain ⟨i, rfl⟩ := hen a (List.mem_cons_self _ _)
    unfold runActs at hrun
    cases hstep : rstep s (.enter i) with
    | none =>
      rw [hstep] at hrun
      exact Option.noConfusion hrun
    | some s2 =>
      rw [hstep] at hrun
      obtain ⟨hInv2, hgi, hother⟩ := enterStep_inv hInv hstep
      obtain ⟨hInv1, hkeep, hen1⟩ := runActs_enters as s2 s1 hInv2
        (fun b hb => hen b (List.mem_cons_of_mem _ hb)) hrun
      refine ⟨hInv1, ?_, ?_⟩
      · intro j hj
        by_cases hji : j = i
        · exact hkeep j (hji ▸ hgi)
        · exact hkeep j ((hother j hji).trans hj)
      · intro j hj
        rcases List.mem_cons.mp hj with he | hj2
        · have hji : j = i := RAct.enter.inj he
          exact hkeep j (hji ▸ hgi)
        · exact hen1 j hj2

/-- C1: if every one of `n` concurrent `resolve` calls for one uncached key
performs its synchronous entry before the in-flight resolution completes,
then exactly one uncached resolution is started, every call waits on it, and
its completion — success, not-found or error alike — removes the in-flight
token and hands all `n` calls the same settled result. -/
theorem resolve_mutex_dedup (n : Nat) (acts : List RAct) (o : ROutcome)
    (hn : 1 ≤ n) (hacts : ∀ a ∈ acts, ∃ i, a = RAct.enter i)
    (hall : ∀ i, i < n → RAct.enter i ∈ acts)
    {s1 : MutexState} (hrun : runActs (initMutex n) acts = some s1) :
    s1.started = [0] ∧ s1.pending = some 0 ∧
    (∀ i, i < n → s1.calls.get? i = some (.waiting 0)) ∧
    ∃ s2, completeStep s1 0 o = some s2 ∧ s2.pending = none ∧
      s2.started = [0] ∧
      (∀ i, i < n → s2.calls.get? i = some (.done (outcomeResult o))) := by
  have hInv0 : MutexInv n (initMutex n) := by
    refine ⟨rfl, List.length_replicate .., ?_, Or.inl ⟨rfl, rfl, rfl, ?_⟩⟩
    · intro c hc
      exact Or.inl (List.eq_of_mem_replicate hc)
    · intro c hc
      exact List.eq_of_mem_replicate hc
  obtain ⟨hInv1, _, hwait⟩ := runActs_enters acts _ s1 hInv0 hacts hrun
  have hw : ∀ i, i < n → s1.calls.get? i = some (.waiting 0) :=
    fun i hi => hwait i (hall i hi)
  obtain ⟨hlib, hlen, hmem, hcase⟩ := hInv1
  have hright : s1.pending = some 0 ∧ s1.started = [0] := by
    rcases hcase with ⟨_, _, _, hallstart⟩ | ⟨hps, _, hst⟩
    · have h0 := hw 0 hn
      have hmem0 : CallPhase.waiting 0 ∈ s1.calls := by
        rcases List.get?_eq_some.mp h0 with ⟨hlt, hget⟩
        exact hget ▸ List.get_mem _ _ _
      exact absurd (hallstart _ hmem0) (by simp)
    · exact ⟨hps, hst⟩
  refine ⟨hright.2, hright.1, hw, ?_⟩
  have hcomp : completeStep s1 0 o = some { s1 with
      lib := (match o with | .hit e => some e | _ => s1.lib),
      pending := none,
      calls := s1.calls.map
        (fun c => if c = .waiting 0 then .done (outcomeResult o) else c) } := by
    unfold completeStep
    rw [if_pos hright.1]
  refine ⟨_, hcomp, rfl, hright.2, ?_⟩
  intro i hi
  show (s1.calls.map
    (fun c => if c = .waiting 0 then .done (outcomeResult o) else c)).get? i
      = some (.done (outcomeResult o))
  rw [List.get?_map, hw i hi]
  simp

/-- Witness for C1: two concurrent calls entering before a not-found
completion. -/
theorem resolve_mutex_dedup_witness :
    ({ lib := none, pending := some 0, nextId := 1, started := [0], calls := [.waiting 0, .waiting 0] } : MutexState).started = [0] ∧
    ({ lib := none, pending := some 0, nextId := 1, started := [0], calls := [.waiting 0, .waiting 0] } : MutexState).pending = some 0 ∧
    (∀ i, i < 2 →
      ({ lib := none, pending := some 0, nextId := 1, started := [0], calls := [.waiting 0, .waiting 0] } : MutexState).calls.get? i
        = some (.waiting 0)) ∧
    ∃ s2, completeStep ({ lib := none, pending := some 0, nextId := 1, started := [0], calls := [.waiting 0, .waiting 0] } : MutexState) 0 ROutcome.miss
        = some s2 ∧
      s2.pending = none ∧ s2.started = [0] ∧
      (∀ i, i < 2 → s2.calls.get? i = some (.done (outcomeResult .miss))) :=
  resolve_mutex_dedup 2 [RAct.enter 0, RAct.enter 1] ROutcome.miss
    (by decide)
    (fun a ha => by
      rcases List.mem_cons.mp ha with rfl | ha2
      · exact ⟨0, rfl⟩
      rcases List.mem_cons.mp ha2 with rfl | ha3
      · exact ⟨1, rfl⟩
      · exact absurd ha3 (List.not_mem_nil a))
    (by decide)
    rfl

theorem checkLocalGo_miss (env : ResolveEnv) (rawDir jsonDir artist title : String) :
    ∀ (exts : List String) (lib : Library),
      (∀ ext ∈ exts,
        fileLookup env (rawDir ++ "/" ++ makeSafeFilename artist title ++ ext)
          = none) →
      checkLocalGo env rawDir jsonDir artist title exts lib =
        (.ok none, lib, exts.length)
  | [], lib, _ => rfl
  | ext :: rest, lib, h => by
    unfold checkLocalGo
    rw [h ext (List.mem_cons_self _ _)]
    rw [checkLocalGo_miss env rawDir jsonDir artist title rest lib
      (fun e he => h e (List.mem_cons_of_mem _ he))]
    rfl

theorem providersGo_none (rawDir jsonDir artist title : String) :
    ∀ (provs : List (Option ProviderHit)) (lib : Library),
      (∀ r ∈ provs, r = none) →
      providersGo rawDir jsonDir artist title provs lib =
        (.ok none, lib, provs.length)
  | [], lib, _ => rfl
  | p :: rest, lib, h => by
    have hp : p = none := h p (List.mem_cons_self _ _)
    subst hp
    unfold providersGo
    rw [providersGo_none rawDir jsonDir artist title rest lib
      (fun r hr => h r (List.mem_cons_of_mem _ hr))]
    rfl

/-- C8: a resolve that misses the Index, finds no staged file and exhausts
all providers returns not-found and leaves the Library Index unchanged — no
entry, positive or negative, is added — so a second resolve for the same key
runs the full pipeline again (same file probes, same provider queries)
instead of returning a cached negative. -/
theorem resolve_miss_no_negative_cache (env : ResolveEnv)
    (rawDir jsonDir : String) (lib : Library) (artist title : String)
    (hfind : libFind lib artist title = none)
    (hlocal : ∀ ext ∈ supportedFormats,
      fileLookup env (rawDir ++ "/" ++ makeSafeFilename artist title ++ ext)
        = none)
    (hprov : ∀ r ∈ env.providerResults, r = none) :
    resolveOnce env rawDir jsonDir lib artist title false false =
      (.ok none, lib, supportedFormats.length, env.providerResults.length) ∧
    resolveOnce env rawDir jsonDir
        (resolveOnce env rawDir jsonDir lib artist title false false).2.1
        artist title false false =
      (.ok none, lib, supportedFormats.length, env.providerResults.length) := by
  have hcl := checkLocalGo_miss env rawDir jsonDir artist title supportedFormats
    lib hlocal
  have hpg := providersGo_none rawDir jsonDir artist title env.providerResults
    lib hprov
  have hone : resolveOnce env rawDir jsonDir lib artist title false false =
      (.ok none, lib, supportedFormats.length, env.providerResults.length) := by
    unfold resolveOnce
    rw [if_pos rfl, hfind]
    unfold doResolve
    rw [if_neg (by simp), hcl]
    show (if false then _ else
      (let p := providersGo rawDir jsonDir artist title env.providerResults lib
       (p.1, p.2.1, supportedFormats.length, p.2.2))) = _
    rw [if_neg (by simp), hpg]
  refine ⟨hone, ?_⟩
  have hproj :
      (resolveOnce env rawDir jsonDir lib artist title false false).2.1 = lib := by
    rw [hone]
  rw [hproj]
  exact hone

/-- Witness for C8 at a concrete empty environment and library. -/
theorem resolve_miss_no_negative_cache_witness :
    resolveOnce ⟨[], [none]⟩ "raw" "json" ⟨[]⟩ "A" "T" false false =
      (.ok none, ⟨[]⟩, supportedFormats.length, [(none : Option ProviderHit)].length) ∧
    resolveOnce ⟨[], [none]⟩ "raw" "json"
        (resolveOnce ⟨[], [none]⟩ "raw" "json" ⟨[]⟩ "A" "T" false false).2.1
        "A" "T" false false =
      (.ok none, ⟨[]⟩, supportedFormats.length, [(none : Option ProviderHit)].length) :=
  resolve_miss_no_negative_cache ⟨[], [none]⟩ "raw" "json" ⟨[]⟩ "A" "T"
    rfl (by decide) (by decide)

/-- C10: the lrclib search decision returns content only from a result's
`syncedLyrics`: when no item in the response carries synced lyrics (for
example only `plainLyrics`), it returns null; a non-null result always has
`format = 'lrc'` and content equal to some item's `syncedLyrics`. -/
theorem lrclib_search_only_synced :
    (∀ items : List LrclibItem, (∀ i ∈ items, i.syncedLyrics = "") →
      lrclibDecide items = none) ∧
    (∀ items r, lrclibDecide items = some r →
      r.format = "lrc" ∧
      ∃ i ∈ items, i.syncedLyrics ≠ "" ∧ r.content = i.syncedLyrics) := by
  constructor
  · intro items h
    unfold lrclibDecide
    by_cases he : items.isEmpty = true
    · rw [if_pos he]
    · rw [if_neg he]
      have hfn : List.find? (fun item => !item.syncedLyrics.isEmpty) items
          = none :=
        List.find?_eq_none.mpr (fun i hi => by rw [h i hi]; decide)
      rw [hfn]
  · intro items r h
    unfold lrclibDecide at h
    split at h
    · exact Option.noConfusion h
    · split at h
      next synced hfind =>
        have hr := Option.some.inj h
        subst hr
        refine ⟨rfl, synced, List.mem_of_find?_eq_some hfind, ?_, rfl⟩
        have hs := List.find?_some hfind
        intro he
        rw [he] at hs
        exact absurd hs (by decide)
      next => exact Option.noConfusion h

/-- Witness for C10: a plain-only response yields null, and a synced item is
returned verbatim as `lrc` content. -/
theorem lrclib_search_only_synced_witness :
    lrclibDecide [⟨1, "A", "T", "L", none, "", "plain only"⟩] = none ∧
    ((⟨"[00:01.00]x", "lrc", "lrclib", 2, "A", "T", "L", some 100⟩
        : SearchHit).format = "lrc" ∧
      ∃ i ∈ [(⟨2, "A", "T", "L", some 100, "[00:01.00]x", ""⟩ : LrclibItem)],
        i.syncedLyrics ≠ "" ∧
        (⟨"[00:01.00]x", "lrc", "lrclib", 2, "A", "T", "L", some 100⟩
          : SearchHit).content = i.syncedLyrics) :=
  ⟨lrclib_search_only_synced.1 [⟨1, "A", "T", "L", none, "", "plain only"⟩]
      (by decide),
   lrclib_search_only_synced.2 [⟨2, "A", "T", "L", some 100, "[00:01.00]x", ""⟩]
      ⟨"[00:01.00]x", "lrc", "lrclib", 2, "A", "T", "L", some 100⟩ rfl⟩

end RK